import Mathlib

/-!
Verification of the encoder executors repository (jinahub text encoders).

This file gives a shallow embedding of the document data model, the
document-batch traversal utility, and the `encode` request handlers of the
text encoders (`DPRTextEncoder`, `TransformerSentenceEncoder`, `LaserEncoder`,
`TFIDFTextEncoder`), together with theorems settling the specification
claims about them.

Documents form a caller-owned tree (each document has an optional `text`, an
optional `embedding`, a tag map, and a list of child `chunks`).  The Python
code mutates documents in place through shared references; we model the
document collection as an explicit state (a list of root documents) and a
mutation as a functional update at a tree address (root index followed by
chunk indices).  Model inference is an abstract parameter: a function from
the batch of extracted texts to either an embedding list or an error,
mirroring the third-party inference call that may fail.
-/

/-- Embedding vectors: fixed-length numeric vectors, modelled as integer lists. -/
abbrev Emb := List Int

/-- A document: a node in a caller-owned tree.  `docId` is the stable
identifier, `text` the optional input payload, `embedding` the optional
output vector, `tags` the key/value tag map (the DPR title tag lives here),
and `chunks` the ordered child documents. -/
inductive Doc : Type where
  | node (docId : String) (text : Option String) (embedding : Option Emb)
      (tags : List (String × String)) (chunks : List Doc)

/-- Identifier attribute of a document. -/
def Doc.docId : Doc → String
  | .node i _ _ _ _ => i

/-- Text attribute of a document. -/
def Doc.text : Doc → Option String
  | .node _ t _ _ _ => t

/-- Embedding attribute of a document. -/
def Doc.embedding : Doc → Option Emb
  | .node _ _ e _ _ => e

/-- Tags attribute of a document. -/
def Doc.tags : Doc → List (String × String)
  | .node _ _ _ tg _ => tg

/-- Chunks (child documents) of a document. -/
def Doc.chunks : Doc → List Doc
  | .node _ _ _ _ cs => cs

/-- Tag lookup, modelling `doc.tags[key]` (`None` when the key is absent). -/
def getTag (d : Doc) (k : String) : Option String :=
  d.tags.lookup k

/-- Resolve a relative address (list of chunk indices) inside one document. -/
def Doc.getAt : Doc → List Nat → Option Doc
  | d, [] => some d
  | d, i :: p =>
    match d.chunks[i]? with
    | some c => Doc.getAt c p
    | none => none

/-- Resolve an address in a document collection: the head is the root index,
the tail descends through chunks.  The empty address is invalid. -/
def getDocL (ds : List Doc) (a : List Nat) : Option Doc :=
  match a with
  | [] => none
  | i :: p =>
    match ds[i]? with
    | some d => d.getAt p
    | none => none

/-- Embedding attribute read at an address (`none` when the address is invalid). -/
def embAt (ds : List Doc) (a : List Nat) : Option (Option Emb) :=
  (getDocL ds a).map Doc.embedding

mutual

/-- Erase every embedding in a document (recursively).  Two document states
related by `eraseEmbD` equality agree on every attribute except embeddings. -/
def eraseEmbD : Doc → Doc
  | .node di t _ tg cs => .node di t none tg (eraseEmbL cs)

/-- Erase every embedding in a document list (recursively). -/
def eraseEmbL : List Doc → List Doc
  | [] => []
  | d :: ds => eraseEmbD d :: eraseEmbL ds

end

mutual

/-- Set the embedding attribute of the document at a relative address inside
one document, leaving every other attribute and every other document intact.
This models the in-place mutation `doc.embedding = value`. -/
def setEmbD : Doc → List Nat → Option Emb → Doc
  | .node di t _ tg cs, [], e => .node di t e tg cs
  | .node di t em tg cs, i :: p, e => .node di t em tg (setEmbL cs i p e)

/-- Set the embedding of the document at index `i`, relative address `p`,
inside a document list. -/
def setEmbL : List Doc → Nat → List Nat → Option Emb → List Doc
  | [], _, _, _ => []
  | c :: cs, 0, p, e => setEmbD c p e :: cs
  | c :: cs, i + 1, p, e => c :: setEmbL cs i p e

end

/-- Set the embedding of the document at an address in the collection.
An invalid (empty) address leaves the collection unchanged. -/
def setDocL (ds : List Doc) (a : List Nat) (e : Option Emb) : List Doc :=
  match a with
  | [] => ds
  | i :: p => setEmbL ds i p e

mutual

/-- Addresses (relative) of the nodes at nesting depth `n` inside one
document, in document order: depth 0 is the document itself, depth `n + 1`
collects depth-`n` nodes of each chunk. -/
def atDepthD : Nat → Doc → List (List Nat)
  | 0, _ => [[]]
  | n + 1, .node _ _ _ _ cs => atDepthL n 0 cs

/-- Addresses of the nodes at depth `n` in the suffix of a document list
starting at index `i`, in document order. -/
def atDepthL : Nat → Nat → List Doc → List (List Nat)
  | _, _, [] => []
  | n, i, d :: ds => (atDepthD n d).map (fun a => i :: a) ++ atDepthL n (i + 1) ds

end

/-- Addresses of all documents at tree level `n` of the collection, in
document order.  Level 0 is the root level (traversal token `r`), level 1
the chunks (`c`), level 2 the chunks of chunks (`cc`), and so on; the spec
describes each traversal selector as choosing exactly one nesting depth. -/
def levelAddrs (ds : List Doc) (n : Nat) : List (List Nat) :=
  atDepthL n 0 ds

/-- Required-attribute test for the text encoders (`needs_attr='text'`):
a document qualifies when its text is set and non-empty. -/
def hasText (d : Doc) : Bool :=
  match d.text with
  | some s => !s.isEmpty
  | none => false

/-- Required-attribute test at an address. -/
def hasTextAt (ds : List Doc) (a : List Nat) : Bool :=
  match getDocL ds a with
  | some d => hasText d
  | none => false

/-- Addresses of the flattened candidate sequence: the union of the selected
levels in selector order, each level in document order, filtered to the
documents that carry a non-empty text. -/
def candidateAddrs (ds : List Doc) (paths : List Nat) : List (List Nat) :=
  (paths.flatMap (fun p => levelAddrs ds p)).filter (fun a => hasTextAt ds a)

/-- Split a list into consecutive chunks of size `B` (the last may be
shorter), with explicit fuel to keep recursion structural. -/
def batchedFuel (B : Nat) : Nat → List α → List (List α)
  | _, [] => []
  | 0, _ :: _ => []
  | fuel + 1, x :: xs => (x :: xs).take B :: batchedFuel B fuel ((x :: xs).drop B)

/-- Split a list into consecutive batches of size `B`; the final batch may be
shorter.  A batch size of zero yields no batches. -/
def batched (B : Nat) (l : List α) : List (List α) :=
  if B = 0 then [] else batchedFuel B l.length l

/-- Modelled from the spec: the flattened candidate document sequence of
`get_docs_batch_generator` from `jina_commons.batching`, an external
dependency whose code is not part of this repository.  Per the spec, the
selected levels are flattened in selector order (document order within a
level), documents lacking the required attribute are excluded, and an empty
or absent root collection yields the empty sequence. -/
def flattenedCandidates (docs : Option (List Doc)) (paths : List Nat) : List Doc :=
  match docs with
  | none => []
  | some ds => (candidateAddrs ds paths).filterMap (getDocL ds)

/-- Modelled from the spec: `get_docs_batch_generator` from
`jina_commons.batching` (external dependency, code not in this repository).
It batches the flattened candidate sequence into batches of at most
`batch_size` documents, the final batch possibly smaller, concatenation
reproducing the flattened sequence. -/
def get_docs_batch_generator (docs : Option (List Doc)) (traversal_path : List Nat)
    (batch_size : Nat) : List (List Doc) :=
  batched batch_size (flattenedCandidates docs traversal_path)

/-- Request parameter map.  The recognized keys are modelled as optional
fields (`none` models an absent key); `extra` models all unrecognized keys,
which no encoder reads. -/
structure Params where
  traversal_paths : Option (List Nat)
  batch_size : Option Nat
  language : Option String
  extra : List (String × String)

/-- Errors an `encode` call can raise: the DPR title-tag pairing error
(carrying the document count interpolated into its message) and a failure
propagated from the third-party inference call. -/
inductive EncodeError : Type where
  | titleTagMismatch (reportedCount : Int)
  | inferenceFailure (msg : String)

/-- Message text of an `encode` error, as interpolated by the source. -/
def EncodeError.message : EncodeError → String
  | .titleTagMismatch c =>
      "If you set `title_tag_key` property, all documents that you want to" ++
      " encode must have this tag. Found " ++ toString c ++ " documents without it."
  | .inferenceFailure m => m

/-- Result of one `encode` call: the (possibly absent) document collection
after its in-place mutations, the inference invocations that completed
(payload type `κ` records what each invocation received), and the error that
aborted the call, if any. -/
structure EncodeResult (κ : Type) where
  docs : Option (List Doc)
  calls : List κ
  err : Option EncodeError

/-- Documents of one batch, resolved in the current document state.  The
batch is carried as addresses (modelling the Python object references). -/
def batchDocsOf (cur : List Doc) (batch : List (List Nat)) : List Doc :=
  batch.filterMap (getDocL cur)

/-- Texts extracted from one batch (`batch_docs.get_attributes('text')`,
resp. `[d.text for d in batch]`). -/
def batchTexts (cur : List Doc) (batch : List (List Nat)) : List String :=
  (batchDocsOf cur batch).map (fun d => d.text.getD "")

/-- Positional assignment of one batch of embeddings, modelling
`for doc, embedding in zip(batch_docs, embeddings): doc.embedding = embedding`
(the zip truncates at the shorter sequence). -/
def assignBatch (cur : List Doc) (batch : List (List Nat)) (embs : List Emb) :
    List Doc :=
  (batch.zip embs).foldl (fun c pe => setDocL c pe.1 (some pe.2)) cur

/-- Process batches strictly sequentially: each batch's step runs on the
state left by the previous batch; the first error aborts the loop, keeping
the state reached so far and recording no call for the failed batch's step. -/
def runBatches (step : List Doc → List (List Nat) → Except EncodeError (List Doc × κ)) :
    List Doc → List (List (List Nat)) → List Doc × List κ × Option EncodeError
  | ds, [] => (ds, [], none)
  | ds, b :: bs =>
    match step ds b with
    | .error e => (ds, [], some e)
    | .ok dc =>
      let r := runBatches step dc.1 bs
      (r.1, dc.2 :: r.2.1, r.2.2)

/-- Batch step shared by `TransformerSentenceEncoder.encode` and
`TFIDFTextEncoder.encode`: extract the texts, run inference once on them,
then assign the returned embeddings positionally. -/
def genericBatchStep (infer : List String → Except String (List Emb))
    (cur : List Doc) (batch : List (List Nat)) :
    Except EncodeError (List Doc × List String) :=
  let texts := batchTexts cur batch
  match infer texts with
  | .error m => .error (.inferenceFailure m)
  | .ok embs => .ok (assignBatch cur batch embs, texts)

/-- Batch step of `LaserEncoder.encode`: like the generic step but the
inference call also receives the effective language. -/
def laserBatchStep (infer : List String → String → Except String (List Emb))
    (language : String) (cur : List Doc) (batch : List (List Nat)) :
    Except EncodeError (List Doc × (List String × String)) :=
  let texts := batchTexts cur batch
  match infer texts language with
  | .error m => .error (.inferenceFailure m)
  | .ok embs => .ok (assignBatch cur batch embs, (texts, language))

/-- Configuration-time errors: the DPR encoder-type validation error and the
TFIDF missing-vectorizer-file error (`PretrainedModelFileDoesNotExist`). -/
inductive InitError : Type where
  | invalidEncoderType (got : String)
  | pretrainedModelFileDoesNotExist (path : String)

/-- Message text of a configuration error, as interpolated by the source. -/
def InitError.message : InitError → String
  | .invalidEncoderType got =>
      "The ``encoder_type`` parameter should be either \"context\"" ++
      " or \"question\", but got " ++ got
  | .pretrainedModelFileDoesNotExist p =>
      p ++ " not found, cannot find a fitted tfidf_vectorizer"

/-- Configuration of `DPRTextEncoder` relevant to `encode` (model and
tokenizer loading is external and out of scope). -/
structure DPRTextEncoder where
  encoder_type : String
  title_tag_key : Option String
  default_batch_size : Nat
  default_traversal_paths : List Nat

/-- Constructor of `DPRTextEncoder`: validates `encoder_type` against
`['context', 'question']` and fails fast with a `ValueError` otherwise. -/
def DPRTextEncoder.init (encoder_type : String) (title_tag_key : Option String)
    (default_batch_size : Nat) (default_traversal_paths : List Nat) :
    Except InitError DPRTextEncoder :=
  if encoder_type ∈ ["context", "question"] then
    .ok ⟨encoder_type, title_tag_key, default_batch_size, default_traversal_paths⟩
  else
    .error (.invalidEncoderType encoder_type)

/-- Configuration of `TransformerSentenceEncoder` relevant to `encode`. -/
structure TransformerSentenceEncoder where
  default_traversal_paths : List Nat
  default_batch_size : Nat

/-- Configuration of `LaserEncoder` relevant to `encode`. -/
structure LaserEncoder where
  default_language : String
  default_batch_size : Nat
  default_traversal_paths : List Nat

/-- Configuration of `TFIDFTextEncoder` relevant to `encode`. -/
structure TFIDFTextEncoder where
  path_vectorizer : String
  default_batch_size : Nat
  default_traversal_paths : List Nat

/-- Default vectorizer location of `TFIDFTextEncoder`
(`Path(__file__).parent / 'model/tfidf_vectorizer.pickle'`). -/
def tfidfDefaultVectorizerPath : String :=
  "model/tfidf_vectorizer.pickle"

/-- Constructor of `TFIDFTextEncoder`: resolves the vectorizer path (falling
back to the packaged default) and fails fast with
`PretrainedModelFileDoesNotExist` when no file exists there.  `pathExists`
abstracts `os.path.exists`. -/
def TFIDFTextEncoder.init (path_vectorizer : Option String)
    (pathExists : String → Bool) (default_batch_size : Nat)
    (default_traversal_paths : List Nat) : Except InitError TFIDFTextEncoder :=
  let pv := path_vectorizer.getD tfidfDefaultVectorizerPath
  if pathExists pv then
    .ok ⟨pv, default_batch_size, default_traversal_paths⟩
  else
    .error (.pretrainedModelFileDoesNotExist pv)

/-- Effective title key of a DPR batch step: the source computes text pairs
only when `self.encoder_type == 'context' and self.title_tag_key` (a `None`
or empty key is falsy in Python). -/
def dprTitleKey (enc : DPRTextEncoder) : Option String :=
  if enc.encoder_type = "context" then
    match enc.title_tag_key with
    | some k => if k.isEmpty then none else some k
    | none => none
  else none

/-- Batch step of `DPRTextEncoder.encode`: extract the texts; on the context
branch with a title key, collect the non-null title tags, raise the pairing
`ValueError` when their count differs from the batch's document count, and
otherwise tokenize with the pairs; run inference once; assign positionally. -/
def dprBatchStep (enc : DPRTextEncoder)
    (infer : List String → Option (List String) → Except String (List Emb))
    (cur : List Doc) (batch : List (List Nat)) :
    Except EncodeError (List Doc × (List String × Option (List String))) :=
  let bdocs := batchDocsOf cur batch
  let texts := bdocs.map (fun d => d.text.getD "")
  match dprTitleKey enc with
  | some k =>
    let text_pairs := (bdocs.map (fun d => getTag d k)).filterMap id
    if text_pairs.length ≠ bdocs.length then
      .error (.titleTagMismatch ((text_pairs.length : Int) - (bdocs.length : Int)))
    else
      match infer texts (some text_pairs) with
      | .error m => .error (.inferenceFailure m)
      | .ok embs => .ok (assignBatch cur batch embs, (texts, some text_pairs))
  | none =>
    match infer texts none with
    | .error m => .error (.inferenceFailure m)
    | .ok embs => .ok (assignBatch cur batch embs, (texts, none))

/-- Translation of `DPRTextEncoder.encode`: skip when `docs` is `None` or
empty (`if docs:`), resolve the traversal paths and batch size from the
parameters with the construction-time defaults as fallback, then process the
generator's batches sequentially with the DPR batch step. -/
def DPRTextEncoder.encode (enc : DPRTextEncoder)
    (infer : List String → Option (List String) → Except String (List Emb))
    (docs : Option (List Doc)) (parameters : Params) :
    EncodeResult (List String × Option (List String)) :=
  match docs with
  | none => ⟨none, [], none⟩
  | some ds =>
    if ds.isEmpty then ⟨some ds, [], none⟩
    else
      let paths := parameters.traversal_paths.getD enc.default_traversal_paths
      let bsize := parameters.batch_size.getD enc.default_batch_size
      let r := runBatches (dprBatchStep enc infer) ds
        (batched bsize (candidateAddrs ds paths))
      ⟨some r.1, r.2.1, r.2.2⟩

/-- Translation of `TransformerSentenceEncoder.encode` (the source has no
`if docs:` guard; the generator itself yields nothing for an absent or empty
collection). -/
def TransformerSentenceEncoder.encode (enc : TransformerSentenceEncoder)
    (infer : List String → Except String (List Emb))
    (docs : Option (List Doc)) (parameters : Params) :
    EncodeResult (List String) :=
  let paths := parameters.traversal_paths.getD enc.default_traversal_paths
  let bsize := parameters.batch_size.getD enc.default_batch_size
  match docs with
  | none => ⟨none, [], none⟩
  | some ds =>
    let r := runBatches (genericBatchStep infer) ds
      (batched bsize (candidateAddrs ds paths))
    ⟨some r.1, r.2.1, r.2.2⟩

/-- Translation of `LaserEncoder.encode`: like the generic pattern, with the
effective language resolved from the parameters (fallback
`default_language`) and passed to each inference call. -/
def LaserEncoder.encode (enc : LaserEncoder)
    (infer : List String → String → Except String (List Emb))
    (docs : Option (List Doc)) (parameters : Params) :
    EncodeResult (List String × String) :=
  match docs with
  | none => ⟨none, [], none⟩
  | some ds =>
    if ds.isEmpty then ⟨some ds, [], none⟩
    else
      let paths := parameters.traversal_paths.getD enc.default_traversal_paths
      let bsize := parameters.batch_size.getD enc.default_batch_size
      let language := parameters.language.getD enc.default_language
      let r := runBatches (laserBatchStep infer language) ds
        (batched bsize (candidateAddrs ds paths))
      ⟨some r.1, r.2.1, r.2.2⟩

/-- Translation of `TFIDFTextEncoder.encode`. -/
def TFIDFTextEncoder.encode (enc : TFIDFTextEncoder)
    (infer : List String → Except String (List Emb))
    (docs : Option (List Doc)) (parameters : Params) :
    EncodeResult (List String) :=
  match docs with
  | none => ⟨none, [], none⟩
  | some ds =>
    if ds.isEmpty then ⟨some ds, [], none⟩
    else
      let paths := parameters.traversal_paths.getD enc.default_traversal_paths
      let bsize := parameters.batch_size.getD enc.default_batch_size
      let r := runBatches (genericBatchStep infer) ds
        (batched bsize (candidateAddrs ds paths))
      ⟨some r.1, r.2.1, r.2.2⟩

/-- The `encode` method viewed as a state transformer on the encoder object:
the source body contains no assignment to `self`, so the post-call encoder
state equals the pre-call one. -/
def DPRTextEncoder.encodeCall (enc : DPRTextEncoder)
    (infer : List String → Option (List String) → Except String (List Emb))
    (docs : Option (List Doc)) (parameters : Params) :
    DPRTextEncoder × EncodeResult (List String × Option (List String)) :=
  (enc, enc.encode infer docs parameters)

/-- The Laser `encode` method viewed as a state transformer on the encoder
object (the source body contains no assignment to `self`). -/
def LaserEncoder.encodeCall (enc : LaserEncoder)
    (infer : List String → String → Except String (List Emb))
    (docs : Option (List Doc)) (parameters : Params) :
    LaserEncoder × EncodeResult (List String × String) :=
  (enc, enc.encode infer docs parameters)

@[simp]
theorem Doc.docId_node : (Doc.node di t eb tg cs).docId = di := rfl

@[simp]
theorem Doc.text_node : (Doc.node di t eb tg cs).text = t := rfl

@[simp]
theorem Doc.embedding_node : (Doc.node di t eb tg cs).embedding = eb := rfl

@[simp]
theorem Doc.tags_node : (Doc.node di t eb tg cs).tags = tg := rfl

@[simp]
theorem Doc.chunks_node : (Doc.node di t eb tg cs).chunks = cs := rfl

@[simp]
theorem eraseEmbD_node :
    eraseEmbD (.node di t eb tg cs) = .node di t none tg (eraseEmbL cs) := by
  rw [eraseEmbD]

@[simp]
theorem eraseEmbL_nil : eraseEmbL [] = [] := by
  rw [eraseEmbL]

@[simp]
theorem eraseEmbL_cons : eraseEmbL (d :: ds) = eraseEmbD d :: eraseEmbL ds := by
  rw [eraseEmbL]

@[simp]
theorem text_eraseEmbD (d : Doc) : (eraseEmbD d).text = d.text := by
  cases d; simp

@[simp]
theorem tags_eraseEmbD (d : Doc) : (eraseEmbD d).tags = d.tags := by
  cases d; simp

@[simp]
theorem docId_eraseEmbD (d : Doc) : (eraseEmbD d).docId = d.docId := by
  cases d; simp

@[simp]
theorem chunks_eraseEmbD (d : Doc) : (eraseEmbD d).chunks = eraseEmbL d.chunks := by
  cases d; simp

@[simp]
theorem hasText_eraseEmbD (d : Doc) : hasText (eraseEmbD d) = hasText d := by
  simp [hasText]

@[simp]
theorem getTag_eraseEmbD (d : Doc) (k : String) : getTag (eraseEmbD d) k = getTag d k := by
  simp [getTag]

@[simp]
theorem length_eraseEmbL (ds : List Doc) : (eraseEmbL ds).length = ds.length := by
  induction ds with
  | nil => simp
  | cons d ds ih => simp [ih]

@[simp]
theorem getElem?_eraseEmbL (ds : List Doc) (i : Nat) :
    (eraseEmbL ds)[i]? = ds[i]?.map eraseEmbD := by
  induction ds generalizing i with
  | nil => simp
  | cons d ds ih =>
    cases i with
    | zero => simp
    | succ j => simp [ih]

theorem getAt_eraseEmbD (d : Doc) (p : List Nat) :
    (eraseEmbD d).getAt p = (d.getAt p).map eraseEmbD := by
  induction p generalizing d with
  | nil => simp [Doc.getAt]
  | cons i p ih =>
    rw [Doc.getAt, Doc.getAt]
    rw [chunks_eraseEmbD, getElem?_eraseEmbL]
    cases h : d.chunks[i]? with
    | none => simp
    | some c => simp [ih]

theorem getDocL_eraseEmbL (ds : List Doc) (a : List Nat) :
    getDocL (eraseEmbL ds) a = (getDocL ds a).map eraseEmbD := by
  cases a with
  | nil => simp [getDocL]
  | cons i p =>
    rw [getDocL, getDocL, getElem?_eraseEmbL]
    cases h : ds[i]? with
    | none => simp
    | some d => simp [getAt_eraseEmbD]

theorem isSome_getDocL_congr {ds ds' : List Doc}
    (h : eraseEmbL ds = eraseEmbL ds') (a : List Nat) :
    (getDocL ds a).isSome = (getDocL ds' a).isSome := by
  have h1 := getDocL_eraseEmbL ds a
  have h2 := getDocL_eraseEmbL ds' a
  rw [h] at h1
  rw [h1] at h2
  cases hx : getDocL ds a <;> cases hy : getDocL ds' a <;>
    simp [hx, hy] at h2 ⊢

theorem batchDocsOf_map_erase (ds : List Doc) (b : List (List Nat)) :
    batchDocsOf (eraseEmbL ds) b = (batchDocsOf ds b).map eraseEmbD := by
  unfold batchDocsOf
  rw [List.map_filterMap]
  congr 1
  funext a
  rw [getDocL_eraseEmbL]

theorem batchDocsOf_erase_congr {ds ds' : List Doc}
    (h : eraseEmbL ds = eraseEmbL ds') (b : List (List Nat)) :
    (batchDocsOf ds b).map eraseEmbD = (batchDocsOf ds' b).map eraseEmbD := by
  rw [← batchDocsOf_map_erase, ← batchDocsOf_map_erase, h]

theorem batchTexts_congr {ds ds' : List Doc}
    (h : eraseEmbL ds = eraseEmbL ds') (b : List (List Nat)) :
    batchTexts ds b = batchTexts ds' b := by
  unfold batchTexts
  have hmap := batchDocsOf_erase_congr h b
  have hc : ((fun d => d.text.getD "") ∘ eraseEmbD) = (fun d : Doc => d.text.getD "") := by
    funext d
    simp [Function.comp]
  have : ∀ l : List Doc,
      l.map (fun d => d.text.getD "") = (l.map eraseEmbD).map (fun d => d.text.getD "") := by
    intro l
    rw [List.map_map, hc]
  rw [this (batchDocsOf ds b), this (batchDocsOf ds' b), hmap]

theorem batchDocsOf_length_congr {ds ds' : List Doc}
    (h : eraseEmbL ds = eraseEmbL ds') (b : List (List Nat)) :
    (batchDocsOf ds b).length = (batchDocsOf ds' b).length := by
  have hmap := batchDocsOf_erase_congr h b
  have := congrArg List.length hmap
  simpa using this

theorem batchTags_congr {ds ds' : List Doc}
    (h : eraseEmbL ds = eraseEmbL ds') (b : List (List Nat)) (k : String) :
    (batchDocsOf ds b).map (fun d => getTag d k) =
      (batchDocsOf ds' b).map (fun d => getTag d k) := by
  have hmap := batchDocsOf_erase_congr h b
  have hc : ((fun d => getTag d k) ∘ eraseEmbD) = (fun d : Doc => getTag d k) := by
    funext d
    simp [Function.comp]
  have : ∀ l : List Doc,
      l.map (fun d => getTag d k) = (l.map eraseEmbD).map (fun d => getTag d k) := by
    intro l
    rw [List.map_map, hc]
  rw [this (batchDocsOf ds b), this (batchDocsOf ds' b), hmap]

@[simp]
theorem setEmbD_nil_addr :
    setEmbD (.node di t eb tg cs) [] e = .node di t e tg cs := by
  rw [setEmbD]

@[simp]
theorem setEmbD_cons_addr :
    setEmbD (.node di t eb tg cs) (i :: p) e = .node di t eb tg (setEmbL cs i p e) := by
  rw [setEmbD]

@[simp]
theorem setEmbL_nil : setEmbL [] i p e = [] := by
  rw [setEmbL]

@[simp]
theorem setEmbL_zero : setEmbL (c :: cs) 0 p e = setEmbD c p e :: cs := by
  rw [setEmbL]

@[simp]
theorem setEmbL_succ : setEmbL (c :: cs) (i + 1) p e = c :: setEmbL cs i p e := by
  rw [setEmbL]

mutual

theorem eraseEmbD_setEmbD : ∀ (d : Doc) (p : List Nat) (e : Option Emb),
    eraseEmbD (setEmbD d p e) = eraseEmbD d
  | .node _ _ _ _ _, [], _ => by simp
  | .node _ _ _ _ cs, i :: p, e => by
    simp [eraseEmbL_setEmbL cs i p e]

theorem eraseEmbL_setEmbL : ∀ (cs : List Doc) (i : Nat) (p : List Nat) (e : Option Emb),
    eraseEmbL (setEmbL cs i p e) = eraseEmbL cs
  | [], _, _, _ => by simp
  | c :: _, 0, p, e => by simp [eraseEmbD_setEmbD c p e]
  | _ :: cs, i + 1, p, e => by simp [eraseEmbL_setEmbL cs i p e]

end

theorem eraseEmbL_setDocL (ds : List Doc) (a : List Nat) (e : Option Emb) :
    eraseEmbL (setDocL ds a e) = eraseEmbL ds := by
  cases a with
  | nil => rw [setDocL]
  | cons i p => rw [setDocL, eraseEmbL_setEmbL]

theorem getElem?_setEmbL (cs : List Doc) (i : Nat) (p : List Nat) (e : Option Emb)
    (j : Nat) :
    (setEmbL cs i p e)[j]? =
      if j = i then cs[j]?.map (fun c => setEmbD c p e) else cs[j]? := by
  induction cs generalizing i j with
  | nil => simp
  | cons c cs ih =>
    cases i with
    | zero =>
      cases j with
      | zero => simp
      | succ j => simp
    | succ i =>
      cases j with
      | zero => simp
      | succ j => simpa using ih i j

@[simp]
theorem Doc.getAt_nil (d : Doc) : d.getAt [] = some d := by
  rw [Doc.getAt]

theorem Doc.getAt_cons (d : Doc) (i : Nat) (p : List Nat) :
    d.getAt (i :: p) = (d.chunks[i]?).bind (fun c => c.getAt p) := by
  rw [Doc.getAt]
  cases h : d.chunks[i]? with
  | none => simp
  | some c => simp

@[simp]
theorem getDocL_nil_addr (ds : List Doc) : getDocL ds [] = none := by
  rw [getDocL]

theorem getDocL_cons_addr (ds : List Doc) (i : Nat) (p : List Nat) :
    getDocL ds (i :: p) = (ds[i]?).bind (fun d => d.getAt p) := by
  rw [getDocL]
  cases h : ds[i]? with
  | none => simp
  | some d => simp

theorem embedding_getAt_setEmbD_same :
    ∀ (d : Doc) (q : List Nat) (e : Option Emb), (d.getAt q).isSome →
      ((setEmbD d q e).getAt q).map Doc.embedding = some e := by
  intro d q
  induction q generalizing d with
  | nil =>
    intro e _
    cases d
    simp [Doc.getAt]
  | cons j q ih =>
    intro e hv
    cases d with
    | node di t eb tg cs =>
      rw [Doc.getAt_cons] at hv
      simp only [Doc.chunks_node] at hv
      rw [setEmbD_cons_addr, Doc.getAt_cons]
      simp only [Doc.chunks_node, getElem?_setEmbL, if_pos rfl]
      cases h : cs[j]? with
      | none => rw [h] at hv; exact absurd hv (by simp)
      | some c =>
        rw [h] at hv
        simp only [if_true, Option.map_some', Option.some_bind]
        exact ih c e (by simpa using hv)

theorem embedding_getAt_setEmbD_other :
    ∀ (d : Doc) (q p : List Nat) (e : Option Emb), p ≠ q →
      ((setEmbD d q e).getAt p).map Doc.embedding = (d.getAt p).map Doc.embedding := by
  intro d q
  induction q generalizing d with
  | nil =>
    intro p e hne
    cases d with
    | node di t eb tg cs =>
      cases p with
      | nil => exact absurd rfl hne
      | cons i p' => simp [Doc.getAt]
  | cons j q ih =>
    intro p e hne
    cases d with
    | node di t eb tg cs =>
      cases p with
      | nil => simp [Doc.getAt]
      | cons i p' =>
        rw [setEmbD_cons_addr, Doc.getAt, Doc.getAt]
        simp only [Doc.chunks_node, getElem?_setEmbL]
        by_cases hij : i = j
        · subst hij
          simp only [if_pos rfl]
          have hpq : p' ≠ q := by
            intro hcontra
            exact hne (by rw [hcontra])
          cases h : cs[i]? with
          | none => simp
          | some c =>
            simp only [Option.map_some']
            exact ih c p' e hpq
        · simp only [if_neg hij]

theorem embAt_setDocL_same (ds : List Doc) (a : List Nat) (e : Option Emb)
    (hv : (getDocL ds a).isSome) :
    embAt (setDocL ds a e) a = some e := by
  cases a with
  | nil => rw [getDocL] at hv; simp at hv
  | cons i p =>
    rw [getDocL_cons_addr] at hv
    rw [setDocL, embAt, getDocL_cons_addr, getElem?_setEmbL, if_pos rfl]
    cases h : ds[i]? with
    | none => rw [h] at hv; exact absurd hv (by simp)
    | some d =>
      rw [h] at hv
      simp only [if_true, Option.map_some', Option.some_bind]
      exact embedding_getAt_setEmbD_same d p e (by simpa using hv)

theorem embAt_setDocL_other (ds : List Doc) (a b : List Nat) (e : Option Emb)
    (hne : a ≠ b) :
    embAt (setDocL ds b e) a = embAt ds a := by
  cases b with
  | nil => rw [setDocL]
  | cons j q =>
    cases a with
    | nil => rw [setDocL]; rw [embAt, embAt, getDocL, getDocL]
    | cons i p =>
      rw [setDocL, embAt, embAt, getDocL, getDocL, getElem?_setEmbL]
      by_cases hij : i = j
      · subst hij
        simp only [if_pos rfl]
        have hpq : p ≠ q := by
          intro hcontra
          exact hne (by rw [hcontra])
        cases h : ds[i]? with
        | none => simp
        | some d =>
          simp only [Option.map_some']
          exact embedding_getAt_setEmbD_other d q p e hpq
      · simp only [if_neg hij]

theorem isSome_getDocL_setDocL (ds : List Doc) (b : List Nat) (e : Option Emb)
    (a : List Nat) :
    (getDocL (setDocL ds b e) a).isSome = (getDocL ds a).isSome :=
  isSome_getDocL_congr (eraseEmbL_setDocL ds b e) a

@[simp]
theorem assignBatch_nil_batch (cur : List Doc) (embs : List Emb) :
    assignBatch cur [] embs = cur := by
  simp [assignBatch]

@[simp]
theorem assignBatch_nil_embs (cur : List Doc) (batch : List (List Nat)) :
    assignBatch cur batch [] = cur := by
  simp [assignBatch]

theorem assignBatch_cons (cur : List Doc) (a : List Nat) (bt : List (List Nat))
    (e : Emb) (et : List Emb) :
    assignBatch cur (a :: bt) (e :: et) = assignBatch (setDocL cur a (some e)) bt et :=
  rfl

theorem eraseEmbL_assignBatch (cur : List Doc) (batch : List (List Nat))
    (embs : List Emb) :
    eraseEmbL (assignBatch cur batch embs) = eraseEmbL cur := by
  induction batch generalizing cur embs with
  | nil => simp
  | cons a bt ih =>
    cases embs with
    | nil => simp
    | cons e et =>
      rw [assignBatch_cons, ih, eraseEmbL_setDocL]

theorem isSome_getDocL_assignBatch (cur : List Doc) (batch : List (List Nat))
    (embs : List Emb) (a : List Nat) :
    (getDocL (assignBatch cur batch embs) a).isSome = (getDocL cur a).isSome :=
  isSome_getDocL_congr (eraseEmbL_assignBatch cur batch embs) a

theorem embAt_assignBatch_not_mem (cur : List Doc) (batch : List (List Nat))
    (embs : List Emb) (a : List Nat) (ha : a ∉ batch) :
    embAt (assignBatch cur batch embs) a = embAt cur a := by
  induction batch generalizing cur embs with
  | nil => simp
  | cons b bt ih =>
    cases embs with
    | nil => simp
    | cons e et =>
      rw [assignBatch_cons]
      have hab : a ≠ b := fun hcontra => ha (by rw [hcontra]; exact List.mem_cons_self b bt)
      have hbt : a ∉ bt := fun hcontra => ha (List.mem_cons_of_mem b hcontra)
      rw [ih (setDocL cur b (some e)) et hbt, embAt_setDocL_other cur a b (some e) hab]

theorem embAt_assignBatch_getD (cur : List Doc) (batch : List (List Nat))
    (embs : List Emb) (n : Nat) (hnd : batch.Nodup) (hn : n < batch.length)
    (hne : n < embs.length) (hv : (getDocL cur (batch.getD n [])).isSome) :
    embAt (assignBatch cur batch embs) (batch.getD n []) =
      some (some (embs.getD n [])) := by
  induction batch generalizing cur embs n with
  | nil => simp at hn
  | cons b bt ih =>
    cases embs with
    | nil => simp at hne
    | cons e et =>
      rw [assignBatch_cons]
      cases n with
      | zero =>
        simp only [List.getD_cons_zero] at hv ⊢
        have hb : b ∉ bt := (List.nodup_cons.mp hnd).1
        rw [embAt_assignBatch_not_mem _ bt et b hb]
        exact embAt_setDocL_same cur b (some e) hv
      | succ n =>
        simp only [List.getD_cons_succ] at hv ⊢
        have hvs : (getDocL (setDocL cur b (some e)) (bt.getD n [])).isSome := by
          rw [isSome_getDocL_setDocL]
          exact hv
        exact ih (setDocL cur b (some e)) et n (List.nodup_cons.mp hnd).2
          (by simpa using hn) (by simpa using hne) hvs

@[simp]
theorem batchedFuel_nil (B f : Nat) : batchedFuel B f ([] : List α) = [] := by
  cases f <;> rfl

theorem batchedFuel_succ_cons (B f : Nat) (x : α) (xs : List α) :
    batchedFuel B (f + 1) (x :: xs) =
      (x :: xs).take B :: batchedFuel B f ((x :: xs).drop B) := rfl

theorem batchedFuel_congr (B : Nat) (hB : B ≠ 0) (f : Nat) (l : List α)
    (hl : l.length ≤ f) : batchedFuel B f l = batchedFuel B l.length l := by
  cases f with
  | zero =>
    cases l with
    | nil => rfl
    | cons x xs => simp at hl
  | succ f =>
    cases l with
    | nil => rfl
    | cons x xs =>
      rw [batchedFuel_succ_cons]
      have hlen : (x :: xs).length = xs.length + 1 := List.length_cons x xs
      rw [hlen, batchedFuel_succ_cons]
      have hdl : ((x :: xs).drop B).length = xs.length + 1 - B := by simp
      have hl' : xs.length + 1 ≤ f + 1 := by simpa using hl
      have h1 : ((x :: xs).drop B).length ≤ f := by omega
      have h2 : ((x :: xs).drop B).length ≤ xs.length := by omega
      rw [batchedFuel_congr B hB f ((x :: xs).drop B) h1,
        batchedFuel_congr B hB xs.length ((x :: xs).drop B) h2]
termination_by f
decreasing_by
  all_goals omega

@[simp]
theorem batched_nil (B : Nat) : batched B ([] : List α) = [] := by
  unfold batched
  split <;> simp

@[simp]
theorem batched_zero (l : List α) : batched 0 l = [] := by
  simp [batched]

theorem batched_cons (B : Nat) (hB : B ≠ 0) (x : α) (xs : List α) :
    batched B (x :: xs) = (x :: xs).take B :: batched B ((x :: xs).drop B) := by
  unfold batched
  rw [if_neg hB, if_neg hB]
  have hlen : (x :: xs).length = xs.length + 1 := by simp
  rw [hlen, batchedFuel_succ_cons]
  congr 1
  apply batchedFuel_congr B hB
  simp only [List.length_drop, List.length_cons]
  omega

theorem flatten_batched (B : Nat) (hB : B ≠ 0) (l : List α) :
    (batched B l).flatten = l := by
  cases l with
  | nil => simp
  | cons x xs =>
    rw [batched_cons B hB, List.flatten_cons,
      flatten_batched B hB ((x :: xs).drop B), List.take_append_drop]
termination_by l.length
decreasing_by
  subst_vars
  simp
  omega

theorem length_batched (B : Nat) (hB : B ≠ 0) (l : List α) :
    (batched B l).length = (l.length + B - 1) / B := by
  cases l with
  | nil =>
    simp only [batched_nil, List.length_nil]
    symm
    apply Nat.div_eq_of_lt
    omega
  | cons x xs =>
    rw [batched_cons B hB, List.length_cons, length_batched B hB ((x :: xs).drop B)]
    have hdl : ((x :: xs).drop B).length = xs.length + 1 - B := by simp
    rw [hdl]
    have hL : (x :: xs).length = xs.length + 1 := by simp
    rw [hL]
    have hr : xs.length + 1 + B - 1 = (xs.length + 1 - 1) + B := by omega
    rw [hr, Nat.add_div_right _ (Nat.pos_of_ne_zero hB)]
    congr 1
    rcases le_or_lt (xs.length + 1) B with h | h
    · have h0 : xs.length + 1 - B = 0 := by omega
      rw [h0]
      rw [Nat.div_eq_of_lt (by omega : 0 + B - 1 < B)]
      rw [Nat.div_eq_of_lt (by omega : xs.length + 1 - 1 < B)]
    · have h1 : xs.length + 1 - B + B - 1 = xs.length + 1 - 1 := by omega
      rw [h1]
termination_by l.length
decreasing_by
  subst_vars
  simp
  omega

theorem length_le_of_mem_batched (B : Nat) (l : List α) (b : List α)
    (hb : b ∈ batched B l) : b.length ≤ B := by
  by_cases hB : B = 0
  · subst hB
    simp at hb
  · cases l with
    | nil => simp at hb
    | cons x xs =>
      rw [batched_cons B hB] at hb
      rcases List.mem_cons.mp hb with h | h
      · subst h
        simp
      · exact length_le_of_mem_batched B ((x :: xs).drop B) b h
termination_by l.length
decreasing_by
  subst_vars
  simp
  omega

theorem batched_getD_length (B : Nat) (hB : B ≠ 0) (l : List α) (i : Nat)
    (hi : i + 1 < (batched B l).length) : ((batched B l).getD i []).length = B := by
  cases l with
  | nil => simp at hi
  | cons x xs =>
    rw [batched_cons B hB] at hi ⊢
    cases i with
    | zero =>
      simp only [List.getD_cons_zero]
      simp only [List.length_cons] at hi
      have hne : batched B ((x :: xs).drop B) ≠ [] := by
        intro hcontra
        rw [hcontra] at hi
        simp at hi
      have hdrop : (x :: xs).drop B ≠ [] := by
        intro hcontra
        rw [hcontra] at hne
        simp at hne
      have hlen : B < (x :: xs).length := by
        by_contra hcontra
        apply hdrop
        apply List.drop_eq_nil_of_le
        omega
      simp only [List.length_take]
      omega
    | succ i =>
      simp only [List.getD_cons_succ]
      apply batched_getD_length B hB ((x :: xs).drop B) i
      simp only [List.length_cons] at hi
      omega
termination_by l.length
decreasing_by
  subst_vars
  simp
  omega

theorem mem_of_mem_batched (B : Nat) (l : List α) (b : List α) (a : α)
    (hb : b ∈ batched B l) (ha : a ∈ b) : a ∈ l := by
  by_cases hB : B = 0
  · subst hB
    simp at hb
  · cases l with
    | nil => simp at hb
    | cons x xs =>
      rw [batched_cons B hB] at hb
      rcases List.mem_cons.mp hb with h | h
      · subst h
        exact List.take_subset B (x :: xs) ha
      · exact List.drop_subset B (x :: xs) (mem_of_mem_batched B ((x :: xs).drop B) b a h ha)
termination_by l.length
decreasing_by
  subst_vars
  simp
  omega

@[simp]
theorem atDepthD_zero (d : Doc) : atDepthD 0 d = [[]] := by
  rw [atDepthD]

theorem atDepthD_succ (n : Nat) (d : Doc) :
    atDepthD (n + 1) d = atDepthL n 0 d.chunks := by
  cases d
  rw [atDepthD]
  rfl

@[simp]
theorem atDepthL_nil (n i : Nat) : atDepthL n i [] = [] := by
  rw [atDepthL]

@[simp]
theorem atDepthL_cons (n i : Nat) (d : Doc) (ds : List Doc) :
    atDepthL n i (d :: ds) =
      (atDepthD n d).map (fun a => i :: a) ++ atDepthL n (i + 1) ds := by
  rw [atDepthL]

theorem head_of_mem_atDepthL (n : Nat) (ds : List Doc) :
    ∀ (i : Nat) (a : List Nat), a ∈ atDepthL n i ds →
      ∃ j a', a = j :: a' ∧ i ≤ j := by
  induction ds with
  | nil => intro i a ha; simp at ha
  | cons d ds ih =>
    intro i a ha
    rw [atDepthL_cons] at ha
    rcases List.mem_append.mp ha with h | h
    · rcases List.mem_map.mp h with ⟨a', _, rfl⟩
      exact ⟨i, a', rfl, Nat.le_refl i⟩
    · rcases ih (i + 1) a h with ⟨j, a', rfl, hij⟩
      exact ⟨j, a', rfl, by omega⟩

mutual

theorem length_of_mem_atDepthD : ∀ (n : Nat) (d : Doc) (a : List Nat),
    a ∈ atDepthD n d → a.length = n
  | 0, _, a => by
    intro ha
    simp at ha
    simp [ha]
  | n + 1, .node di t eb tg cs, a => by
    intro ha
    rw [atDepthD] at ha
    have := length_of_mem_atDepthL n cs 0 a ha
    omega

theorem length_of_mem_atDepthL : ∀ (n : Nat) (ds : List Doc) (i : Nat) (a : List Nat),
    a ∈ atDepthL n i ds → a.length = n + 1
  | _, [], _, _ => by
    intro ha
    simp at ha
  | n, d :: ds, i, a => by
    intro ha
    rw [atDepthL_cons] at ha
    rcases List.mem_append.mp ha with h | h
    · rcases List.mem_map.mp h with ⟨a', ha', rfl⟩
      have := length_of_mem_atDepthD n d a' ha'
      simp [this]
    · exact length_of_mem_atDepthL n ds (i + 1) a h

end

mutual

theorem nodup_atDepthD : ∀ (n : Nat) (d : Doc), (atDepthD n d).Nodup
  | 0, _ => by simp
  | n + 1, .node di t eb tg cs => by
    rw [atDepthD]
    exact nodup_atDepthL n cs 0

theorem nodup_atDepthL : ∀ (n : Nat) (ds : List Doc) (i : Nat), (atDepthL n i ds).Nodup
  | _, [], _ => by simp
  | n, d :: ds, i => by
    rw [atDepthL_cons]
    apply List.Nodup.append
    · exact (nodup_atDepthD n d).map (fun a b hab => by simpa using hab)
    · exact nodup_atDepthL n ds (i + 1)
    · intro a ha hb
      rcases List.mem_map.mp ha with ⟨a', _, rfl⟩
      rcases head_of_mem_atDepthL n ds (i + 1) (i :: a') hb with ⟨j, b', hjb, hij⟩
      have : i = j := by
        have := List.cons.injEq i a' j b' ▸ hjb
        exact (List.cons.inj hjb).1
      omega

end

theorem isSome_of_mem_candidateAddrs (ds : List Doc) (paths : List Nat)
    (a : List Nat) (ha : a ∈ candidateAddrs ds paths) :
    (getDocL ds a).isSome := by
  have hf := (List.mem_filter.mp ha).2
  rw [hasTextAt] at hf
  cases h : getDocL ds a with
  | none => rw [h] at hf; simp at hf
  | some d => simp

theorem hasTextAt_of_mem_candidateAddrs (ds : List Doc) (paths : List Nat)
    (a : List Nat) (ha : a ∈ candidateAddrs ds paths) :
    hasTextAt ds a = true :=
  (List.mem_filter.mp ha).2

theorem selected_of_mem_candidateAddrs (ds : List Doc) (paths : List Nat)
    (a : List Nat) (ha : a ∈ candidateAddrs ds paths) :
    ∃ p ∈ paths, a ∈ levelAddrs ds p := by
  have hm := (List.mem_filter.mp ha).1
  exact List.mem_flatMap.mp hm

theorem nodup_candidateAddrs (ds : List Doc) (paths : List Nat)
    (hnd : paths.Nodup) : (candidateAddrs ds paths).Nodup := by
  apply List.Nodup.filter
  induction paths with
  | nil => simp
  | cons p pt ih =>
    rw [List.flatMap_cons]
    apply List.Nodup.append
    · exact nodup_atDepthL p ds 0
    · exact ih (List.nodup_cons.mp hnd).2
    · intro a ha hb
      have hlen1 : a.length = p + 1 := length_of_mem_atDepthL p ds 0 a ha
      rcases List.mem_flatMap.mp hb with ⟨q, hq, haq⟩
      have hlen2 : a.length = q + 1 := length_of_mem_atDepthL q ds 0 a haq
      have hpq : p ≠ q := by
        intro hcontra
        exact (List.nodup_cons.mp hnd).1 (hcontra ▸ hq)
      omega

@[simp]
theorem runBatches_nil (step : List Doc → List (List Nat) → Except EncodeError (List Doc × κ))
    (ds : List Doc) : runBatches step ds [] = (ds, [], none) := by
  rw [runBatches]

theorem runBatches_cons_error
    (step : List Doc → List (List Nat) → Except EncodeError (List Doc × κ))
    (ds : List Doc) (b : List (List Nat)) (bs : List (List (List Nat)))
    (e : EncodeError) (h : step ds b = .error e) :
    runBatches step ds (b :: bs) = (ds, [], some e) := by
  rw [runBatches, h]

theorem runBatches_cons_ok
    (step : List Doc → List (List Nat) → Except EncodeError (List Doc × κ))
    (ds : List Doc) (b : List (List Nat)) (bs : List (List (List Nat)))
    (dc : List Doc × κ) (h : step ds b = .ok dc) :
    runBatches step ds (b :: bs) =
      ((runBatches step dc.1 bs).1, dc.2 :: (runBatches step dc.1 bs).2.1,
        (runBatches step dc.1 bs).2.2) := by
  rw [runBatches, h]

/-- Frame property of a batch step: a successful step changes only
embeddings, and only at addresses of its own batch. -/
def StepFrame (step : List Doc → List (List Nat) → Except EncodeError (List Doc × κ)) :
    Prop :=
  ∀ cur b out, step cur b = .ok out →
    eraseEmbL out.1 = eraseEmbL cur ∧ ∀ a, a ∉ b → embAt out.1 a = embAt cur a

theorem runBatches_frame
    (step : List Doc → List (List Nat) → Except EncodeError (List Doc × κ))
    (hstep : StepFrame step) (ds : List Doc) (bs : List (List (List Nat))) :
    eraseEmbL (runBatches step ds bs).1 = eraseEmbL ds ∧
      ∀ a, (∀ b ∈ bs, a ∉ b) → embAt (runBatches step ds bs).1 a = embAt ds a := by
  induction bs generalizing ds with
  | nil => simp
  | cons b bt ih =>
    cases hs : step ds b with
    | error e =>
      rw [runBatches_cons_error step ds b bt e hs]
      exact ⟨rfl, fun a _ => rfl⟩
    | ok dc =>
      rw [runBatches_cons_ok step ds b bt dc hs]
      obtain ⟨h1, h2⟩ := hstep ds b dc hs
      obtain ⟨ih1, ih2⟩ := ih dc.1
      refine ⟨by rw [ih1, h1], ?_⟩
      intro a ha
      have hbt : ∀ b' ∈ bt, a ∉ b' := fun b' hb' => ha b' (List.mem_cons_of_mem b hb')
      rw [ih2 a hbt, h2 a (ha b (List.mem_cons_self b bt))]

theorem genericBatchStep_frame (infer : List String → Except String (List Emb)) :
    StepFrame (genericBatchStep infer) := by
  intro cur b out hs
  simp only [genericBatchStep] at hs
  cases hinf : infer (batchTexts cur b) with
  | error m => rw [hinf] at hs; simp at hs
  | ok embs =>
    rw [hinf] at hs
    simp only [Except.ok.injEq] at hs
    subst hs
    exact ⟨eraseEmbL_assignBatch cur b embs,
      fun a ha => embAt_assignBatch_not_mem cur b embs a ha⟩

theorem laserBatchStep_frame (infer : List String → String → Except String (List Emb))
    (language : String) : StepFrame (laserBatchStep infer language) := by
  intro cur b out hs
  simp only [laserBatchStep] at hs
  cases hinf : infer (batchTexts cur b) language with
  | error m => rw [hinf] at hs; simp at hs
  | ok embs =>
    rw [hinf] at hs
    simp only [Except.ok.injEq] at hs
    subst hs
    exact ⟨eraseEmbL_assignBatch cur b embs,
      fun a ha => embAt_assignBatch_not_mem cur b embs a ha⟩

theorem dprBatchStep_frame (enc : DPRTextEncoder)
    (infer : List String → Option (List String) → Except String (List Emb)) :
    StepFrame (dprBatchStep enc infer) := by
  intro cur b out hs
  simp only [dprBatchStep] at hs
  cases hk : dprTitleKey enc with
  | some k =>
    rw [hk] at hs
    simp only at hs
    by_cases hc :
        (((batchDocsOf cur b).map (fun d => getTag d k)).filterMap id).length ≠
          (batchDocsOf cur b).length
    · rw [if_pos hc] at hs
      simp at hs
    · rw [if_neg hc] at hs
      cases hinf : infer ((batchDocsOf cur b).map (fun d => d.text.getD ""))
          (some (((batchDocsOf cur b).map (fun d => getTag d k)).filterMap id)) with
      | error m => rw [hinf] at hs; simp at hs
      | ok embs =>
        rw [hinf] at hs
        simp only [Except.ok.injEq] at hs
        subst hs
        exact ⟨eraseEmbL_assignBatch cur b embs,
          fun a ha => embAt_assignBatch_not_mem cur b embs a ha⟩
  | none =>
    rw [hk] at hs
    simp only at hs
    cases hinf : infer ((batchDocsOf cur b).map (fun d => d.text.getD "")) none with
    | error m => rw [hinf] at hs; simp at hs
    | ok embs =>
      rw [hinf] at hs
      simp only [Except.ok.injEq] at hs
      subst hs
      exact ⟨eraseEmbL_assignBatch cur b embs,
        fun a ha => embAt_assignBatch_not_mem cur b embs a ha⟩

theorem runBatches_cons_ok2
    (step : List Doc → List (List Nat) → Except EncodeError (List Doc × κ))
    (ds ds1 : List Doc) (b : List (List Nat)) (bs : List (List (List Nat)))
    (c : κ) (h : step ds b = .ok (ds1, c)) :
    runBatches step ds (b :: bs) =
      ((runBatches step ds1 bs).1, c :: (runBatches step ds1 bs).2.1,
        (runBatches step ds1 bs).2.2) := by
  rw [runBatches, h]

theorem genericBatchStep_ok (infer : List String → Except String (List Emb))
    (cur : List Doc) (b : List (List Nat)) (embs : List Emb)
    (h : infer (batchTexts cur b) = .ok embs) :
    genericBatchStep infer cur b = .ok (assignBatch cur b embs, batchTexts cur b) := by
  simp only [genericBatchStep, h]

theorem genericBatchStep_error (infer : List String → Except String (List Emb))
    (cur : List Doc) (b : List (List Nat)) (m : String)
    (h : infer (batchTexts cur b) = .error m) :
    genericBatchStep infer cur b = .error (.inferenceFailure m) := by
  simp only [genericBatchStep, h]

theorem getD_mem_of_lt {l : List α} (n : Nat) (d : α) (h : n < l.length) :
    l.getD n d ∈ l := by
  rw [List.getD_eq_getElem l d h]
  exact List.getElem_mem h

theorem runGeneric_ok (infer : List String → Except String (List Emb))
    (ds : List Doc) (bs : List (List (List Nat)))
    (hval : ∀ b ∈ bs, ∀ a ∈ b, (getDocL ds a).isSome)
    (hnd : bs.flatten.Nodup)
    (hinf : ∀ b ∈ bs, ∃ embs, infer (batchTexts ds b) = .ok embs ∧ embs.length = b.length) :
    (runBatches (genericBatchStep infer) ds bs).2.2 = none ∧
    (runBatches (genericBatchStep infer) ds bs).2.1 = bs.map (batchTexts ds) ∧
    eraseEmbL (runBatches (genericBatchStep infer) ds bs).1 = eraseEmbL ds ∧
    (∀ a, a ∉ bs.flatten → embAt (runBatches (genericBatchStep infer) ds bs).1 a = embAt ds a) ∧
    ∀ k, k < bs.length → ∀ n, n < (bs.getD k []).length →
      ∃ embs, infer (batchTexts ds (bs.getD k [])) = .ok embs ∧
        embAt (runBatches (genericBatchStep infer) ds bs).1 ((bs.getD k []).getD n []) =
          some (some (embs.getD n [])) := by
  induction bs generalizing ds with
  | nil =>
    refine ⟨by simp, by simp, by simp, by simp, ?_⟩
    intro k hk
    simp at hk
  | cons b bt ih =>
    obtain ⟨embs, hinfb, hlen⟩ := hinf b (List.mem_cons_self b bt)
    have hstep := genericBatchStep_ok infer ds b embs hinfb
    have herase : eraseEmbL (assignBatch ds b embs) = eraseEmbL ds :=
      eraseEmbL_assignBatch ds b embs
    have hnd2 : (b ++ bt.flatten).Nodup := by simpa using hnd
    obtain ⟨hndb, hndbt, hdisj⟩ := List.nodup_append.mp hnd2
    have hval' : ∀ b' ∈ bt, ∀ a ∈ b', (getDocL (assignBatch ds b embs) a).isSome := by
      intro b' hb' a ha
      rw [isSome_getDocL_congr herase a]
      exact hval b' (List.mem_cons_of_mem b hb') a ha
    have hinf' : ∀ b' ∈ bt, ∃ e2, infer (batchTexts (assignBatch ds b embs) b') = .ok e2 ∧
        e2.length = b'.length := by
      intro b' hb'
      rw [batchTexts_congr herase b']
      exact hinf b' (List.mem_cons_of_mem b hb')
    obtain ⟨ih1, ih2, ih3, ih4, ih5⟩ := ih (assignBatch ds b embs) hval' hndbt hinf'
    rw [runBatches_cons_ok2 _ ds (assignBatch ds b embs) b bt (batchTexts ds b) hstep]
    refine ⟨ih1, ?_, by rw [ih3, herase], ?_, ?_⟩
    · show batchTexts ds b ::
          (runBatches (genericBatchStep infer) (assignBatch ds b embs) bt).2.1 =
        (b :: bt).map (batchTexts ds)
      rw [ih2, List.map_cons]
      congr 1
      exact List.map_congr_left (fun b' hb' => batchTexts_congr herase b')
    · intro a ha
      rw [List.flatten_cons] at ha
      have ha1 : a ∉ b := fun hc => ha (List.mem_append.mpr (Or.inl hc))
      have ha2 : a ∉ bt.flatten := fun hc => ha (List.mem_append.mpr (Or.inr hc))
      rw [ih4 a ha2]
      exact embAt_assignBatch_not_mem ds b embs a ha1
    · intro k hk n hn
      cases k with
      | zero =>
        simp only [List.getD_cons_zero] at hn ⊢
        refine ⟨embs, hinfb, ?_⟩
        have haddr : b.getD n [] ∈ b := getD_mem_of_lt n [] hn
        have hnot : b.getD n [] ∉ bt.flatten := hdisj haddr
        rw [ih4 _ hnot]
        exact embAt_assignBatch_getD ds b embs n hndb hn (by omega)
          (hval b (List.mem_cons_self b bt) _ haddr)
      | succ k =>
        simp only [List.getD_cons_succ] at hn ⊢
        have hk' : k < bt.length := by simpa using hk
        obtain ⟨e2, hinf2, hembs⟩ := ih5 k hk' n hn
        rw [batchTexts_congr herase (bt.getD k [])] at hinf2
        exact ⟨e2, hinf2, hembs⟩

theorem mem_flatten_of_getD {L : List (List α)} {j : Nat} {a : α}
    (hj : j < L.length) (ha : a ∈ L.getD j []) : a ∈ L.flatten :=
  List.mem_flatten.mpr ⟨L.getD j [], getD_mem_of_lt j [] hj, ha⟩

theorem runGeneric_first_failure (infer : List String → Except String (List Emb))
    (ds : List Doc) (bs : List (List (List Nat)))
    (hval : ∀ b ∈ bs, ∀ a ∈ b, (getDocL ds a).isSome)
    (hnd : bs.flatten.Nodup) (k : Nat) (hk : k < bs.length)
    (hpre : ∀ i, i < k → ∃ embs, infer (batchTexts ds (bs.getD i [])) = .ok embs ∧
      embs.length = (bs.getD i []).length)
    (m : String) (hfail : infer (batchTexts ds (bs.getD k [])) = .error m) :
    (runBatches (genericBatchStep infer) ds bs).2.2 = some (.inferenceFailure m) ∧
    (runBatches (genericBatchStep infer) ds bs).2.1 = (bs.take k).map (batchTexts ds) ∧
    (∀ a, (∃ j, k ≤ j ∧ j < bs.length ∧ a ∈ bs.getD j []) →
      embAt (runBatches (genericBatchStep infer) ds bs).1 a = embAt ds a) ∧
    ∀ i, i < k → ∀ n, n < (bs.getD i []).length →
      ∃ embs, infer (batchTexts ds (bs.getD i [])) = .ok embs ∧
        embAt (runBatches (genericBatchStep infer) ds bs).1 ((bs.getD i []).getD n []) =
          some (some (embs.getD n [])) := by
  induction bs generalizing ds k with
  | nil => simp at hk
  | cons b bt ih =>
    have hnd2 : (b ++ bt.flatten).Nodup := by simpa using hnd
    obtain ⟨hndb, hndbt, hdisj⟩ := List.nodup_append.mp hnd2
    cases k with
    | zero =>
      simp only [List.getD_cons_zero] at hfail
      have hstep := genericBatchStep_error infer ds b m hfail
      rw [runBatches_cons_error _ ds b bt _ hstep]
      refine ⟨rfl, by simp, fun a _ => rfl, ?_⟩
      intro i hi
      simp at hi
    | succ k =>
      have h0 : ∃ embs, infer (batchTexts ds b) = .ok embs ∧ embs.length = b.length := by
        have := hpre 0 (by omega)
        simpa using this
      obtain ⟨embs, hinfb, hlen⟩ := h0
      have hstep := genericBatchStep_ok infer ds b embs hinfb
      have herase : eraseEmbL (assignBatch ds b embs) = eraseEmbL ds :=
        eraseEmbL_assignBatch ds b embs
      have hval' : ∀ b' ∈ bt, ∀ a ∈ b', (getDocL (assignBatch ds b embs) a).isSome := by
        intro b' hb' a ha
        rw [isSome_getDocL_congr herase a]
        exact hval b' (List.mem_cons_of_mem b hb') a ha
      have hpre' : ∀ i, i < k → ∃ e2,
          infer (batchTexts (assignBatch ds b embs) (bt.getD i [])) = .ok e2 ∧
            e2.length = (bt.getD i []).length := by
        intro i hi
        rw [batchTexts_congr herase (bt.getD i [])]
        have := hpre (i + 1) (by omega)
        simpa using this
      have hfail' : infer (batchTexts (assignBatch ds b embs) (bt.getD k [])) = .error m := by
        rw [batchTexts_congr herase (bt.getD k [])]
        simpa using hfail
      have hk' : k < bt.length := by simpa using hk
      obtain ⟨j1, j2, j3, j4⟩ :=
        ih (assignBatch ds b embs) hval' hndbt k hk' hpre' hfail'
      rw [runBatches_cons_ok2 _ ds (assignBatch ds b embs) b bt (batchTexts ds b) hstep]
      refine ⟨j1, ?_, ?_, ?_⟩
      · show batchTexts ds b ::
            (runBatches (genericBatchStep infer) (assignBatch ds b embs) bt).2.1 =
          ((b :: bt).take (k + 1)).map (batchTexts ds)
        rw [j2, List.take_succ_cons, List.map_cons]
        congr 1
        exact List.map_congr_left (fun b' hb' => batchTexts_congr herase b')
      · intro a ⟨j, hjk, hjlen, hja⟩
        have hj1 : 1 ≤ j := by omega
        have hja' : a ∈ bt.getD (j - 1) [] := by
          rcases Nat.exists_eq_add_of_le hj1 with ⟨j', rfl⟩
          simpa [Nat.add_comm] using hja
        have hjlen' : j - 1 < bt.length := by
          simp only [List.length_cons] at hjlen
          omega
        have hmem : a ∈ bt.flatten := mem_flatten_of_getD hjlen' hja'
        have hnb : a ∉ b := fun hcontra => hdisj hcontra hmem
        rw [j3 a ⟨j - 1, by omega, hjlen', hja'⟩]
        exact embAt_assignBatch_not_mem ds b embs a hnb
      · intro i hi n hn
        cases i with
        | zero =>
          simp only [List.getD_cons_zero] at hn ⊢
          refine ⟨embs, hinfb, ?_⟩
          have haddr : b.getD n [] ∈ b := getD_mem_of_lt n [] hn
          have hnotmem : ∀ b' ∈ bt, b.getD n [] ∉ b' := by
            intro b' hb' hcontra
            exact hdisj haddr (List.mem_flatten.mpr ⟨b', hb', hcontra⟩)
          have hframe := (runBatches_frame (genericBatchStep infer)
            (genericBatchStep_frame infer) (assignBatch ds b embs) bt).2
          rw [hframe (b.getD n []) hnotmem]
          exact embAt_assignBatch_getD ds b embs n hndb hn (by omega)
            (hval b (List.mem_cons_self b bt) _ haddr)
        | succ i =>
          simp only [List.getD_cons_succ] at hn ⊢
          obtain ⟨e2, hinf2, hembs⟩ := j4 i (by omega) n hn
          rw [batchTexts_congr herase (bt.getD i [])] at hinf2
          exact ⟨e2, hinf2, hembs⟩

theorem runLaser_eq_generic (infer : List String → String → Except String (List Emb))
    (lang : String) (ds : List Doc) (bs : List (List (List Nat))) :
    runBatches (laserBatchStep infer lang) ds bs =
      ((runBatches (genericBatchStep (fun ts => infer ts lang)) ds bs).1,
        (runBatches (genericBatchStep (fun ts => infer ts lang)) ds bs).2.1.map
          (fun t => (t, lang)),
        (runBatches (genericBatchStep (fun ts => infer ts lang)) ds bs).2.2) := by
  induction bs generalizing ds with
  | nil => simp
  | cons b bt ih =>
    cases hinf : infer (batchTexts ds b) lang with
    | error m =>
      have h1 : laserBatchStep infer lang ds b = .error (.inferenceFailure m) := by
        simp only [laserBatchStep, hinf]
      have h2 : genericBatchStep (fun ts => infer ts lang) ds b =
          .error (.inferenceFailure m) := by
        simp only [genericBatchStep, hinf]
      rw [runBatches_cons_error _ ds b bt _ h1, runBatches_cons_error _ ds b bt _ h2]
      rfl
    | ok embs =>
      have h1 : laserBatchStep infer lang ds b =
          .ok (assignBatch ds b embs, (batchTexts ds b, lang)) := by
        simp only [laserBatchStep, hinf]
      have h2 : genericBatchStep (fun ts => infer ts lang) ds b =
          .ok (assignBatch ds b embs, batchTexts ds b) := by
        simp only [genericBatchStep, hinf]
      rw [runBatches_cons_ok2 _ ds (assignBatch ds b embs) b bt _ h1,
        runBatches_cons_ok2 _ ds (assignBatch ds b embs) b bt _ h2,
        ih (assignBatch ds b embs)]
      rfl

theorem dprBatchStep_ok_with_key (enc : DPRTextEncoder)
    (infer : List String → Option (List String) → Except String (List Emb))
    (cur : List Doc) (b : List (List Nat)) (k : String) (embs : List Emb)
    (hk : dprTitleKey enc = some k)
    (hcomplete : (((batchDocsOf cur b).map (fun d => getTag d k)).filterMap id).length =
      (batchDocsOf cur b).length)
    (hinf : infer (batchTexts cur b)
      (some (((batchDocsOf cur b).map (fun d => getTag d k)).filterMap id)) = .ok embs) :
    dprBatchStep enc infer cur b = .ok (assignBatch cur b embs,
      (batchTexts cur b,
        some (((batchDocsOf cur b).map (fun d => getTag d k)).filterMap id))) := by
  simp only [dprBatchStep, hk]
  rw [if_neg (by omega)]
  rw [show ((batchDocsOf cur b).map fun d => d.text.getD "") = batchTexts cur b from rfl]
  rw [hinf]

theorem dprBatchStep_mismatch (enc : DPRTextEncoder)
    (infer : List String → Option (List String) → Except String (List Emb))
    (cur : List Doc) (b : List (List Nat)) (k : String)
    (hk : dprTitleKey enc = some k)
    (hmis : (((batchDocsOf cur b).map (fun d => getTag d k)).filterMap id).length ≠
      (batchDocsOf cur b).length) :
    dprBatchStep enc infer cur b = .error (.titleTagMismatch
      (((((batchDocsOf cur b).map (fun d => getTag d k)).filterMap id).length : Int) -
        ((batchDocsOf cur b).length : Int))) := by
  simp only [dprBatchStep, hk]
  rw [if_pos hmis]

theorem dprBatchStep_no_key (enc : DPRTextEncoder)
    (infer : List String → Option (List String) → Except String (List Emb))
    (cur : List Doc) (b : List (List Nat)) (hk : dprTitleKey enc = none) :
    dprBatchStep enc infer cur b =
      match infer (batchTexts cur b) none with
      | .error m => .error (.inferenceFailure m)
      | .ok embs => .ok (assignBatch cur b embs, (batchTexts cur b, none)) := by
  simp only [dprBatchStep, hk]
  rfl

theorem filterMap_id_length_add (l : List (Option α)) :
    (l.filterMap id).length + (l.filter (fun o => o.isNone)).length = l.length := by
  induction l with
  | nil => simp
  | cons o l ih =>
    cases o with
    | none => simp only [List.filterMap_cons_none, List.filter_cons]; simp; omega
    | some a => simp only [List.filterMap_cons_some, List.filter_cons]; simp; omega

theorem filterMap_id_length_eq_iff (l : List (Option α)) :
    (l.filterMap id).length = l.length ↔ none ∉ l := by
  have hsum := filterMap_id_length_add l
  constructor
  · intro he hmem
    have hmf : none ∈ l.filter (fun o => (o : Option α).isNone) :=
      List.mem_filter.mpr ⟨hmem, by simp⟩
    have hne : l.filter (fun o => (o : Option α).isNone) ≠ [] := by
      intro hcontra
      rw [hcontra] at hmf
      simp at hmf
    have : (l.filter (fun o => (o : Option α).isNone)).length ≠ 0 := by
      intro hcontra
      exact hne (List.length_eq_zero.mp hcontra)
    omega
  · intro hn
    have hemp : l.filter (fun o => (o : Option α).isNone) = [] := by
      rw [List.filter_eq_nil_iff]
      intro o ho
      cases o with
      | none => exact absurd ho hn
      | some a => simp
    rw [hemp] at hsum
    simpa using hsum

theorem runDpr_first_mismatch (enc : DPRTextEncoder)
    (infer : List String → Option (List String) → Except String (List Emb))
    (k : String) (hk : dprTitleKey enc = some k) (ds : List Doc)
    (bs : List (List (List Nat))) (hnd : bs.flatten.Nodup) (kk : Nat)
    (hkk : kk < bs.length)
    (hpre : ∀ i, i < kk →
      (none ∉ (batchDocsOf ds (bs.getD i [])).map (fun d => getTag d k)) ∧
      ∃ embs, infer (batchTexts ds (bs.getD i []))
        (some (((batchDocsOf ds (bs.getD i [])).map (fun d => getTag d k)).filterMap id)) =
          .ok embs)
    (hmiss : none ∈ (batchDocsOf ds (bs.getD kk [])).map (fun d => getTag d k)) :
    (∃ c, (runBatches (dprBatchStep enc infer) ds bs).2.2 = some (.titleTagMismatch c)) ∧
    (runBatches (dprBatchStep enc infer) ds bs).2.1.length = kk ∧
    ∀ a ∈ bs.getD kk [], embAt (runBatches (dprBatchStep enc infer) ds bs).1 a = embAt ds a := by
  induction bs generalizing ds kk with
  | nil => simp at hkk
  | cons b bt ih =>
    have hnd2 : (b ++ bt.flatten).Nodup := by simpa using hnd
    obtain ⟨hndb, hndbt, hdisj⟩ := List.nodup_append.mp hnd2
    cases kk with
    | zero =>
      simp only [List.getD_cons_zero] at hmiss
      have hmis : (((batchDocsOf ds b).map (fun d => getTag d k)).filterMap id).length ≠
          (batchDocsOf ds b).length := by
        intro hcontra
        rw [← List.length_map (batchDocsOf ds b) (fun d => getTag d k)] at hcontra
        exact (filterMap_id_length_eq_iff _).mp hcontra hmiss
      have hstep := dprBatchStep_mismatch enc infer ds b k hk hmis
      rw [runBatches_cons_error _ ds b bt _ hstep]
      exact ⟨⟨_, rfl⟩, rfl, fun a _ => rfl⟩
    | succ kk =>
      have h0 := hpre 0 (by omega)
      simp only [List.getD_cons_zero] at h0
      obtain ⟨hcomp0, embs, hinf0⟩ := h0
      have hcomplete : (((batchDocsOf ds b).map (fun d => getTag d k)).filterMap id).length =
          (batchDocsOf ds b).length := by
        rw [← List.length_map (batchDocsOf ds b) (fun d => getTag d k)]
        exact (filterMap_id_length_eq_iff _).mpr hcomp0
      have hstep := dprBatchStep_ok_with_key enc infer ds b k embs hk hcomplete hinf0
      have herase : eraseEmbL (assignBatch ds b embs) = eraseEmbL ds :=
        eraseEmbL_assignBatch ds b embs
      have hpre' : ∀ i, i < kk →
          (none ∉ (batchDocsOf (assignBatch ds b embs) (bt.getD i [])).map
            (fun d => getTag d k)) ∧
          ∃ e2, infer (batchTexts (assignBatch ds b embs) (bt.getD i []))
            (some (((batchDocsOf (assignBatch ds b embs) (bt.getD i [])).map
              (fun d => getTag d k)).filterMap id)) = .ok e2 := by
        intro i hi
        rw [batchTags_congr herase (bt.getD i []) k,
          batchTexts_congr herase (bt.getD i [])]
        have := hpre (i + 1) (by omega)
        simpa using this
      have hmiss' : none ∈ (batchDocsOf (assignBatch ds b embs) (bt.getD kk [])).map
          (fun d => getTag d k) := by
        rw [batchTags_congr herase (bt.getD kk []) k]
        simpa using hmiss
      have hkk' : kk < bt.length := by simpa using hkk
      obtain ⟨⟨c, i1⟩, i2, i3⟩ := ih (assignBatch ds b embs) hndbt kk hkk' hpre' hmiss'
      rw [runBatches_cons_ok2 _ ds (assignBatch ds b embs) b bt _ hstep]
      refine ⟨⟨c, i1⟩, ?_, ?_⟩
      · show ((batchTexts ds b,
            some (((batchDocsOf ds b).map (fun d => getTag d k)).filterMap id)) ::
            (runBatches (dprBatchStep enc infer) (assignBatch ds b embs) bt).2.1).length =
          kk + 1
        rw [List.length_cons, i2]
      · intro a ha
        simp only [List.getD_cons_succ] at ha
        have hmem : a ∈ bt.flatten := mem_flatten_of_getD hkk' ha
        have hnb : a ∉ b := fun hcontra => hdisj hcontra hmem
        rw [i3 a ha]
        exact embAt_assignBatch_not_mem ds b embs a hnb

theorem runBatches_err_shape
    (step : List Doc → List (List Nat) → Except EncodeError (List Doc × κ))
    (P : EncodeError → Prop)
    (hstep : ∀ cur b e, step cur b = .error e → P e) (ds : List Doc)
    (bs : List (List (List Nat))) :
    ∀ e, (runBatches step ds bs).2.2 = some e → P e := by
  induction bs generalizing ds with
  | nil => intro e he; simp at he
  | cons b bt ih =>
    intro e he
    cases hs : step ds b with
    | error e' =>
      rw [runBatches_cons_error _ ds b bt _ hs] at he
      simp only [Option.some.injEq] at he
      exact he ▸ hstep ds b e' hs
    | ok dc =>
      rw [runBatches_cons_ok _ ds b bt dc hs] at he
      exact ih dc.1 e he

theorem dprBatchStep_no_key_err (enc : DPRTextEncoder)
    (infer : List String → Option (List String) → Except String (List Emb))
    (cur : List Doc) (b : List (List Nat)) (e : EncodeError)
    (hk : dprTitleKey enc = none) (h : dprBatchStep enc infer cur b = .error e) :
    ∃ m, e = .inferenceFailure m := by
  rw [dprBatchStep_no_key enc infer cur b hk] at h
  cases hinf : infer (batchTexts cur b) none with
  | error m =>
    rw [hinf] at h
    simp only [Except.error.injEq] at h
    exact ⟨m, h.symm⟩
  | ok embs =>
    rw [hinf] at h
    simp at h

@[simp]
theorem candidateAddrs_nil (paths : List Nat) : candidateAddrs [] paths = [] := by
  unfold candidateAddrs
  have h : paths.flatMap (fun p => levelAddrs [] p) = [] := by
    induction paths with
    | nil => simp
    | cons p pt ih => simp [levelAddrs, ih]
  rw [h]
  simp

theorem batchDocsOf_length_of_valid (ds : List Doc) (b : List (List Nat))
    (hval : ∀ a ∈ b, (getDocL ds a).isSome) : (batchDocsOf ds b).length = b.length := by
  induction b with
  | nil => simp [batchDocsOf]
  | cons a bt ih =>
    have hv := hval a (List.mem_cons_self a bt)
    cases h : getDocL ds a with
    | none => rw [h] at hv; simp at hv
    | some d =>
      unfold batchDocsOf
      rw [List.filterMap_cons, h]
      simp only [List.length_cons]
      have := ih (fun a' ha' => hval a' (List.mem_cons_of_mem a ha'))
      unfold batchDocsOf at this
      rw [this]

theorem nodup_flatten_batched (B : Nat) (l : List α) (hl : l.Nodup) :
    (batched B l).flatten.Nodup := by
  by_cases hB : B = 0
  · subst hB
    simp
  · rw [flatten_batched B hB]
    exact hl

theorem dprBatchStep_key_congr (enc1 enc2 : DPRTextEncoder)
    (h : dprTitleKey enc1 = dprTitleKey enc2)
    (infer : List String → Option (List String) → Except String (List Emb)) :
    dprBatchStep enc1 infer = dprBatchStep enc2 infer := by
  funext cur b
  simp only [dprBatchStep, h]

theorem dprEncode_unfold (enc : DPRTextEncoder)
    (infer : List String → Option (List String) → Except String (List Emb))
    (ds : List Doc) (p : Params) :
    enc.encode infer (some ds) p =
      ⟨some (runBatches (dprBatchStep enc infer) ds
          (batched (p.batch_size.getD enc.default_batch_size)
            (candidateAddrs ds (p.traversal_paths.getD enc.default_traversal_paths)))).1,
        (runBatches (dprBatchStep enc infer) ds
          (batched (p.batch_size.getD enc.default_batch_size)
            (candidateAddrs ds (p.traversal_paths.getD enc.default_traversal_paths)))).2.1,
        (runBatches (dprBatchStep enc infer) ds
          (batched (p.batch_size.getD enc.default_batch_size)
            (candidateAddrs ds (p.traversal_paths.getD enc.default_traversal_paths)))).2.2⟩ := by
  by_cases h : ds.isEmpty
  · have hnil : ds = [] := by
      cases ds with
      | nil => rfl
      | cons d dt => simp at h
    subst hnil
    simp [DPRTextEncoder.encode]
  · simp [DPRTextEncoder.encode, h]

theorem sentenceEncode_unfold (enc : TransformerSentenceEncoder)
    (infer : List String → Except String (List Emb)) (ds : List Doc) (p : Params) :
    enc.encode infer (some ds) p =
      ⟨some (runBatches (genericBatchStep infer) ds
          (batched (p.batch_size.getD enc.default_batch_size)
            (candidateAddrs ds (p.traversal_paths.getD enc.default_traversal_paths)))).1,
        (runBatches (genericBatchStep infer) ds
          (batched (p.batch_size.getD enc.default_batch_size)
            (candidateAddrs ds (p.traversal_paths.getD enc.default_traversal_paths)))).2.1,
        (runBatches (genericBatchStep infer) ds
          (batched (p.batch_size.getD enc.default_batch_size)
            (candidateAddrs ds (p.traversal_paths.getD enc.default_traversal_paths)))).2.2⟩ :=
  rfl

theorem laserEncode_unfold (enc : LaserEncoder)
    (infer : List String → String → Except String (List Emb)) (ds : List Doc)
    (p : Params) :
    enc.encode infer (some ds) p =
      ⟨some (runBatches (laserBatchStep infer (p.language.getD enc.default_language)) ds
          (batched (p.batch_size.getD enc.default_batch_size)
            (candidateAddrs ds (p.traversal_paths.getD enc.default_traversal_paths)))).1,
        (runBatches (laserBatchStep infer (p.language.getD enc.default_language)) ds
          (batched (p.batch_size.getD enc.default_batch_size)
            (candidateAddrs ds (p.traversal_paths.getD enc.default_traversal_paths)))).2.1,
        (runBatches (laserBatchStep infer (p.language.getD enc.default_language)) ds
          (batched (p.batch_size.getD enc.default_batch_size)
            (candidateAddrs ds (p.traversal_paths.getD enc.default_traversal_paths)))).2.2⟩ := by
  by_cases h : ds.isEmpty
  · have hnil : ds = [] := by
      cases ds with
      | nil => rfl
      | cons d dt => simp at h
    subst hnil
    simp [LaserEncoder.encode]
  · simp [LaserEncoder.encode, h]

theorem tfidfEncode_unfold (enc : TFIDFTextEncoder)
    (infer : List String → Except String (List Emb)) (ds : List Doc) (p : Params) :
    enc.encode infer (some ds) p =
      ⟨some (runBatches (genericBatchStep infer) ds
          (batched (p.batch_size.getD enc.default_batch_size)
            (candidateAddrs ds (p.traversal_paths.getD enc.default_traversal_paths)))).1,
        (runBatches (genericBatchStep infer) ds
          (batched (p.batch_size.getD enc.default_batch_size)
            (candidateAddrs ds (p.traversal_paths.getD enc.default_traversal_paths)))).2.1,
        (runBatches (genericBatchStep infer) ds
          (batched (p.batch_size.getD enc.default_batch_size)
            (candidateAddrs ds (p.traversal_paths.getD enc.default_traversal_paths)))).2.2⟩ := by
  by_cases h : ds.isEmpty
  · have hnil : ds = [] := by
      cases ds with
      | nil => rfl
      | cons d dt => simp at h
    subst hnil
    simp [TFIDFTextEncoder.encode]
  · simp [TFIDFTextEncoder.encode, h]

/-- Sample fixture: a root document with text and a title tag. -/
def docA : Doc := .node "a" (some "hello") none [("title", "ta")] []

/-- Sample fixture: a root document with text and one chunk that also has text. -/
def docB : Doc := .node "b" (some "world") none [] [.node "b0" (some "inner") none [] []]

/-- Sample fixture: a root document with no text (excluded by the filter). -/
def docC : Doc := .node "c" none none [] []

/-- Sample fixture collection. -/
def sampleDocs : List Doc := [docA, docB, docC]

/-- Sample parameter map with no recognized keys set. -/
def sampleParams : Params := ⟨none, none, none, []⟩

/-- C2: for a flattened candidate sequence of length L and positive batch
size B, the generator yields exactly ceil(L/B) batches, every batch except
possibly the last has exactly B documents, no batch exceeds B documents, and
concatenating the batches in yield order reproduces the flattened candidate
sequence exactly. -/
theorem batch_generator_spec (docs : Option (List Doc)) (paths : List Nat)
    (B : Nat) (hB : 0 < B) :
    (get_docs_batch_generator docs paths B).length =
      ((flattenedCandidates docs paths).length + B - 1) / B ∧
    (∀ b ∈ get_docs_batch_generator docs paths B, b.length ≤ B) ∧
    (∀ i, i + 1 < (get_docs_batch_generator docs paths B).length →
      ((get_docs_batch_generator docs paths B).getD i []).length = B) ∧
    (get_docs_batch_generator docs paths B).flatten = flattenedCandidates docs paths := by
  have hB' : B ≠ 0 := by omega
  unfold get_docs_batch_generator
  exact ⟨length_batched B hB' _,
    fun b hb => length_le_of_mem_batched B _ b hb,
    fun i hi => batched_getD_length B hB' _ i hi,
    flatten_batched B hB' _⟩

/-- Witness for C2 at a concrete collection, traversal paths and batch size. -/
theorem batch_generator_spec_witness :
    0 < 2 ∧
    (get_docs_batch_generator (some sampleDocs) [0, 1] 2).length =
      ((flattenedCandidates (some sampleDocs) [0, 1]).length + 2 - 1) / 2 ∧
    (get_docs_batch_generator (some sampleDocs) [0, 1] 2).flatten =
      flattenedCandidates (some sampleDocs) [0, 1] := by
  have h := batch_generator_spec (some sampleDocs) [0, 1] 2 (by decide)
  exact ⟨by decide, h.1, h.2.2.2⟩

/-- C3: for every encoder, calling encode with an absent (`None`) or empty
document collection is a no-op: no error is raised, no inference call is
made, and the collection (hence every embedding) is returned unchanged. -/
theorem encode_empty_noop (dpr : DPRTextEncoder) (sen : TransformerSentenceEncoder)
    (las : LaserEncoder) (tfi : TFIDFTextEncoder)
    (inferD : List String → Option (List String) → Except String (List Emb))
    (inferS : List String → Except String (List Emb))
    (inferL : List String → String → Except String (List Emb))
    (inferT : List String → Except String (List Emb)) (p : Params) :
    dpr.encode inferD none p = ⟨none, [], none⟩ ∧
    dpr.encode inferD (some []) p = ⟨some [], [], none⟩ ∧
    sen.encode inferS none p = ⟨none, [], none⟩ ∧
    sen.encode inferS (some []) p = ⟨some [], [], none⟩ ∧
    las.encode inferL none p = ⟨none, [], none⟩ ∧
    las.encode inferL (some []) p = ⟨some [], [], none⟩ ∧
    tfi.encode inferT none p = ⟨none, [], none⟩ ∧
    tfi.encode inferT (some []) p = ⟨some [], [], none⟩ := by
  refine ⟨rfl, ?_, rfl, ?_, rfl, ?_, rfl, ?_⟩
  · rw [dprEncode_unfold]
    simp
  · rw [sentenceEncode_unfold]
    simp
  · rw [laserEncode_unfold]
    simp
  · rw [tfidfEncode_unfold]
    simp

/-- C8: configuration errors are raised at construction time and the encoder
never reaches a usable state: an `encoder_type` other than `context` or
`question` makes `DPRTextEncoder.__init__` raise a `ValueError` naming the
parameter, and a missing vectorizer file makes `TFIDFTextEncoder.__init__`
raise `PretrainedModelFileDoesNotExist` naming the resolved path. -/
theorem init_config_errors :
    (∀ (et : String) (ttk : Option String) (b : Nat) (tp : List Nat),
      et ≠ "context" → et ≠ "question" →
        DPRTextEncoder.init et ttk b tp = .error (.invalidEncoderType et) ∧
        (InitError.invalidEncoderType et).message =
          "The ``encoder_type`` parameter should be either \"context\" or \"question\", but got "
            ++ et) ∧
    (∀ (pv : Option String) (pathExists : String → Bool) (b : Nat) (tp : List Nat),
      pathExists (pv.getD tfidfDefaultVectorizerPath) = false →
        TFIDFTextEncoder.init pv pathExists b tp =
          .error (.pretrainedModelFileDoesNotExist (pv.getD tfidfDefaultVectorizerPath)) ∧
        (InitError.pretrainedModelFileDoesNotExist
          (pv.getD tfidfDefaultVectorizerPath)).message =
          pv.getD tfidfDefaultVectorizerPath ++
            " not found, cannot find a fitted tfidf_vectorizer") := by
  constructor
  · intro et ttk b tp h1 h2
    refine ⟨?_, rfl⟩
    unfold DPRTextEncoder.init
    rw [if_neg]
    simp only [List.mem_cons, List.mem_singleton]
    push_neg
    exact ⟨h1, h2, by simp⟩
  · intro pv pathExists b tp hpe
    refine ⟨?_, rfl⟩
    unfold TFIDFTextEncoder.init
    simp only [hpe]
    rw [if_neg]
    simp

/-- Witness for C8 at a concrete invalid encoder type and a concrete absent
vectorizer file. -/
theorem init_config_errors_witness :
    ("ctx" ≠ "context" ∧ "ctx" ≠ "question" ∧
      DPRTextEncoder.init "ctx" none 32 [0] = .error (.invalidEncoderType "ctx")) ∧
    ((fun _ => false : String → Bool) tfidfDefaultVectorizerPath = false ∧
      TFIDFTextEncoder.init none (fun _ => false) 2048 [0] =
        .error (.pretrainedModelFileDoesNotExist tfidfDefaultVectorizerPath)) := by
  constructor
  · exact ⟨by decide, by decide,
      (init_config_errors.1 "ctx" none 32 [0] (by decide) (by decide)).1⟩
  · exact ⟨rfl, (init_config_errors.2 none (fun _ => false) 2048 [0] rfl).1⟩

/-- C7: the traversal paths and batch size an encode call actually uses are
the `traversal_paths` and `batch_size` parameter values when present and the
construction-time defaults otherwise; the call never mutates the stored
defaults; unrecognized parameter keys have no effect; and for the Laser
encoder the `language` key analogously overrides the default language. -/
theorem encode_parameter_overrides :
    (∀ (enc : DPRTextEncoder)
      (inferD : List String → Option (List String) → Except String (List Emb))
      (docs : Option (List Doc)) (tp : List Nat) (bsz : Nat) (lg : Option String)
      (ex : List (String × String)),
      enc.encode inferD docs ⟨some tp, some bsz, lg, ex⟩ =
        DPRTextEncoder.encode ⟨enc.encoder_type, enc.title_tag_key, bsz, tp⟩ inferD docs
          ⟨none, none, lg, ex⟩) ∧
    (∀ (enc : DPRTextEncoder)
      (inferD : List String → Option (List String) → Except String (List Emb))
      (docs : Option (List Doc)) (p : Params) (ex' : List (String × String)),
      enc.encode inferD docs p =
        enc.encode inferD docs ⟨p.traversal_paths, p.batch_size, p.language, ex'⟩) ∧
    (∀ (enc : DPRTextEncoder)
      (inferD : List String → Option (List String) → Except String (List Emb))
      (docs : Option (List Doc)) (p : Params),
      (DPRTextEncoder.encodeCall enc inferD docs p).1 = enc) ∧
    (∀ (las : LaserEncoder)
      (inferL : List String → String → Except String (List Emb))
      (docs : Option (List Doc)) (tp : Option (List Nat)) (bsz : Option Nat)
      (lg : String) (ex : List (String × String)),
      las.encode inferL docs ⟨tp, bsz, some lg, ex⟩ =
        LaserEncoder.encode ⟨lg, las.default_batch_size, las.default_traversal_paths⟩
          inferL docs ⟨tp, bsz, none, ex⟩) ∧
    (∀ (las : LaserEncoder)
      (inferL : List String → String → Except String (List Emb))
      (docs : Option (List Doc)) (p : Params),
      (LaserEncoder.encodeCall las inferL docs p).1 = las) := by
  refine ⟨?_, ?_, fun _ _ _ _ => rfl, ?_, fun _ _ _ _ => rfl⟩
  · intro enc inferD docs tp bsz lg ex
    cases docs with
    | none => rfl
    | some ds =>
      have hkey : dprTitleKey ⟨enc.encoder_type, enc.title_tag_key, bsz, tp⟩ =
          dprTitleKey enc := rfl
      rw [dprEncode_unfold, dprEncode_unfold,
        dprBatchStep_key_congr _ enc hkey inferD]
      rfl
  · intro enc inferD docs p ex'
    cases docs with
    | none => rfl
    | some ds => rfl
  · intro las inferL docs tp bsz lg ex
    cases docs with
    | none => rfl
    | some ds =>
      rw [laserEncode_unfold, laserEncode_unfold]
      rfl

/-- C10: for a question-type DPR encoder, encode behaves identically whatever
`title_tag_key` is set to, and never raises the title-tag mismatch error:
the text-pair computation and its check live only on the context branch. -/
theorem dpr_question_title_key_independent (enc : DPRTextEncoder)
    (tk : Option String)
    (infer : List String → Option (List String) → Except String (List Emb))
    (docs : Option (List Doc)) (p : Params)
    (hq : enc.encoder_type = "question") :
    DPRTextEncoder.encode enc infer docs p =
      DPRTextEncoder.encode
        ⟨enc.encoder_type, tk, enc.default_batch_size, enc.default_traversal_paths⟩
        infer docs p ∧
    ∀ c, (DPRTextEncoder.encode enc infer docs p).err ≠ some (.titleTagMismatch c) := by
  have hnone : dprTitleKey enc = none := by
    unfold dprTitleKey
    rw [hq]
    simp
  have hnone2 : dprTitleKey
      ⟨enc.encoder_type, tk, enc.default_batch_size, enc.default_traversal_paths⟩ = none := by
    unfold dprTitleKey
    simp only
    rw [hq]
    simp
  constructor
  · cases docs with
    | none => rfl
    | some ds =>
      rw [dprEncode_unfold, dprEncode_unfold,
        dprBatchStep_key_congr _ enc (hnone2.trans hnone.symm) infer]
  · intro c
    cases docs with
    | none => simp [DPRTextEncoder.encode]
    | some ds =>
      rw [dprEncode_unfold]
      intro hcontra
      simp only at hcontra
      obtain ⟨m, hm⟩ := runBatches_err_shape (dprBatchStep enc infer)
        (fun e => ∃ m, e = .inferenceFailure m)
        (fun cur b e he => dprBatchStep_no_key_err enc infer cur b e hnone he)
        ds _ _ hcontra
      simp at hm

/-- Witness for C10 at a concrete question-type encoder, document set and
title key. -/
theorem dpr_question_title_key_independent_witness :
    (DPRTextEncoder.mk "question" none 32 [0]).encoder_type = "question" ∧
    DPRTextEncoder.encode ⟨"question", none, 32, [0]⟩
        (fun ts _ => .ok (ts.map (fun _ => [1]))) (some sampleDocs) sampleParams =
      DPRTextEncoder.encode ⟨"question", some "title", 32, [0]⟩
        (fun ts _ => .ok (ts.map (fun _ => [1]))) (some sampleDocs) sampleParams := by
  have h := dpr_question_title_key_independent ⟨"question", none, 32, [0]⟩
    (some "title") (fun ts _ => .ok (ts.map (fun _ => [1]))) (some sampleDocs)
    sampleParams rfl
  exact ⟨rfl, h.1⟩

/-- C6: whenever the DPR batch step raises the title-tag pairing error, the
count interpolated into the message is `len(text_pairs) - len(batch_docs)`,
which is strictly negative and equal to the negation of the true number of
batch documents missing the tag (the filter only ever removes entries, so
`text_pairs` is never longer than the batch). -/
theorem dpr_mismatch_count_negated (enc : DPRTextEncoder)
    (infer : List String → Option (List String) → Except String (List Emb))
    (cur : List Doc) (b : List (List Nat)) (c : Int)
    (h : dprBatchStep enc infer cur b = .error (.titleTagMismatch c)) :
    ∃ k, dprTitleKey enc = some k ∧
      c = ((((batchDocsOf cur b).map (fun d => getTag d k)).filterMap id).length : Int) -
        ((batchDocsOf cur b).length : Int) ∧
      c < 0 ∧
      c = -(((((batchDocsOf cur b).map (fun d => getTag d k)).filter
        (fun o => o.isNone)).length : Int)) ∧
      (EncodeError.titleTagMismatch c).message =
        "If you set `title_tag_key` property, all documents that you want to" ++
          " encode must have this tag. Found " ++ toString c ++ " documents without it." := by
  cases hk : dprTitleKey enc with
  | none =>
    obtain ⟨m, hm⟩ := dprBatchStep_no_key_err enc infer cur b _ hk h
    simp at hm
  | some k =>
    refine ⟨k, rfl, ?_⟩
    by_cases hmis : (((batchDocsOf cur b).map (fun d => getTag d k)).filterMap id).length ≠
        (batchDocsOf cur b).length
    · rw [dprBatchStep_mismatch enc infer cur b k hk hmis] at h
      simp only [Except.error.injEq, EncodeError.titleTagMismatch.injEq] at h
      subst h
      have hsum := filterMap_id_length_add ((batchDocsOf cur b).map (fun d => getTag d k))
      rw [List.length_map] at hsum
      refine ⟨rfl, ?_, ?_, rfl⟩
      · omega
      · omega
    · push_neg at hmis
      exfalso
      simp only [dprBatchStep, hk] at h
      rw [if_neg (by omega)] at h
      cases hinf : infer ((batchDocsOf cur b).map (fun d => d.text.getD ""))
          (some (((batchDocsOf cur b).map (fun d => getTag d k)).filterMap id)) with
      | error m => rw [hinf] at h; simp at h
      | ok embs => rw [hinf] at h; simp at h

/-- Witness for C6: a concrete context encoder and batch where one of two
documents lacks the title tag; the reported count is `-1`, not the true
count `1`. -/
theorem dpr_mismatch_count_negated_witness :
    dprBatchStep ⟨"context", some "title", 32, [0, 1]⟩
        (fun ts _ => .ok (ts.map (fun _ => [1]))) sampleDocs [[0], [1]] =
      .error (.titleTagMismatch (-1)) ∧
    ∃ k, dprTitleKey ⟨"context", some "title", 32, [0, 1]⟩ = some k ∧
      (-1 : Int) =
        ((((batchDocsOf sampleDocs [[0], [1]]).map (fun d => getTag d k)).filterMap
          id).length : Int) - ((batchDocsOf sampleDocs [[0], [1]]).length : Int) ∧
      (-1 : Int) < 0 ∧
      (-1 : Int) = -(((((batchDocsOf sampleDocs [[0], [1]]).map
        (fun d => getTag d k)).filter (fun o => o.isNone)).length : Int)) := by
  have hstep : dprBatchStep ⟨"context", some "title", 32, [0, 1]⟩
      (fun ts _ => .ok (ts.map (fun _ => [1]))) sampleDocs [[0], [1]] =
        .error (.titleTagMismatch (-1)) := rfl
  obtain ⟨k, hk, h1, h2, h3, _⟩ := dpr_mismatch_count_negated _ _ _ _ _ hstep
  exact ⟨hstep, k, hk, h1, h2, h3⟩

/-- C1: an encode call mutates only the `embedding` attribute (every other
attribute of every document, and the tree shape, are unchanged: erasing
embeddings on both sides gives equal collections), and it mutates it only at
addresses selected by the effective traversal paths that carried a non-empty
text at call time; the embedding of every other document is unchanged.
Stated for `DPRTextEncoder.encode` and `TransformerSentenceEncoder.encode`. -/
theorem encode_frame_only_selected_embeddings (dpr : DPRTextEncoder)
    (inferD : List String → Option (List String) → Except String (List Emb))
    (sen : TransformerSentenceEncoder)
    (inferS : List String → Except String (List Emb))
    (ds : List Doc) (p : Params) :
    (∃ ds', (dpr.encode inferD (some ds) p).docs = some ds' ∧
      eraseEmbL ds' = eraseEmbL ds ∧
      ∀ a, a ∉ candidateAddrs ds (p.traversal_paths.getD dpr.default_traversal_paths) →
        embAt ds' a = embAt ds a) ∧
    (∃ ds', (sen.encode inferS (some ds) p).docs = some ds' ∧
      eraseEmbL ds' = eraseEmbL ds ∧
      ∀ a, a ∉ candidateAddrs ds (p.traversal_paths.getD sen.default_traversal_paths) →
        embAt ds' a = embAt ds a) ∧
    (∀ paths : List Nat, ∀ a ∈ candidateAddrs ds paths,
      hasTextAt ds a = true ∧ ∃ q ∈ paths, a ∈ levelAddrs ds q) := by
  refine ⟨?_, ?_, ?_⟩
  · rw [dprEncode_unfold]
    obtain ⟨h1, h2⟩ := runBatches_frame (dprBatchStep dpr inferD)
      (dprBatchStep_frame dpr inferD) ds
      (batched (p.batch_size.getD dpr.default_batch_size)
        (candidateAddrs ds (p.traversal_paths.getD dpr.default_traversal_paths)))
    refine ⟨_, rfl, h1, ?_⟩
    intro a ha
    apply h2
    intro b hb hcontra
    exact ha (mem_of_mem_batched _ _ b a hb hcontra)
  · rw [sentenceEncode_unfold]
    obtain ⟨h1, h2⟩ := runBatches_frame (genericBatchStep inferS)
      (genericBatchStep_frame inferS) ds
      (batched (p.batch_size.getD sen.default_batch_size)
        (candidateAddrs ds (p.traversal_paths.getD sen.default_traversal_paths)))
    refine ⟨_, rfl, h1, ?_⟩
    intro a ha
    apply h2
    intro b hb hcontra
    exact ha (mem_of_mem_batched _ _ b a hb hcontra)
  · intro paths a ha
    exact ⟨hasTextAt_of_mem_candidateAddrs ds paths a ha,
      selected_of_mem_candidateAddrs ds paths a ha⟩

/-- Witness for C1 at a concrete encoder, collection and unselected address:
the root without text keeps its (absent) embedding. -/
theorem encode_frame_only_selected_embeddings_witness :
    [2] ∉ candidateAddrs sampleDocs [0] ∧
    ∃ ds', (DPRTextEncoder.encode ⟨"question", none, 32, [0]⟩
        (fun ts _ => .ok (ts.map (fun _ => [1]))) (some sampleDocs) sampleParams).docs =
          some ds' ∧
      eraseEmbL ds' = eraseEmbL sampleDocs ∧
      embAt ds' [2] = embAt sampleDocs [2] := by
  obtain ⟨⟨ds', hdocs, herase, hout⟩, _, _⟩ :=
    encode_frame_only_selected_embeddings ⟨"question", none, 32, [0]⟩
      (fun ts _ => .ok (ts.map (fun _ => [1]))) ⟨[0], 32⟩
      (fun ts => .ok (ts.map (fun _ => [1]))) sampleDocs sampleParams
  have hnot : [2] ∉ candidateAddrs sampleDocs [0] := by decide
  exact ⟨hnot, ds', hdocs, herase, hout [2] hnot⟩

/-- C4: a successful encode call invokes the inference function exactly once
per generated batch, in order, on exactly that batch's extracted texts, and
assigns the returned embeddings positionally: the `n`-th output embedding of
the batch's call becomes the embedding of the batch's `n`-th document.
Stated for `TFIDFTextEncoder.encode`; the hypothesis on `infer` is the
collaborator contract (one embedding per input text). -/
theorem encode_positional_assignment (enc : TFIDFTextEncoder)
    (infer : List String → Except String (List Emb)) (ds : List Doc) (p : Params)
    (hnd : (p.traversal_paths.getD enc.default_traversal_paths).Nodup)
    (hinf : ∀ ts : List String, ∃ embs, infer ts = .ok embs ∧ embs.length = ts.length) :
    (enc.encode infer (some ds) p).err = none ∧
    (enc.encode infer (some ds) p).calls =
      (batched (p.batch_size.getD enc.default_batch_size)
        (candidateAddrs ds (p.traversal_paths.getD enc.default_traversal_paths))).map
        (batchTexts ds) ∧
    ∀ k, k < (batched (p.batch_size.getD enc.default_batch_size)
        (candidateAddrs ds (p.traversal_paths.getD enc.default_traversal_paths))).length →
      ∀ n, n < ((batched (p.batch_size.getD enc.default_batch_size)
        (candidateAddrs ds (p.traversal_paths.getD enc.default_traversal_paths))).getD
          k []).length →
      ∃ embs ds',
        infer (batchTexts ds ((batched (p.batch_size.getD enc.default_batch_size)
          (candidateAddrs ds
            (p.traversal_paths.getD enc.default_traversal_paths))).getD k [])) =
            .ok embs ∧
        (enc.encode infer (some ds) p).docs = some ds' ∧
        embAt ds' (((batched (p.batch_size.getD enc.default_batch_size)
          (candidateAddrs ds
            (p.traversal_paths.getD enc.default_traversal_paths))).getD k []).getD n []) =
          some (some (embs.getD n [])) := by
  have hval0 : ∀ b ∈ batched (p.batch_size.getD enc.default_batch_size)
      (candidateAddrs ds (p.traversal_paths.getD enc.default_traversal_paths)),
      ∀ a ∈ b, (getDocL ds a).isSome := by
    intro b hb a ha
    exact isSome_of_mem_candidateAddrs ds _ a (mem_of_mem_batched _ _ b a hb ha)
  have hnd0 : (batched (p.batch_size.getD enc.default_batch_size)
      (candidateAddrs ds (p.traversal_paths.getD enc.default_traversal_paths))).flatten.Nodup :=
    nodup_flatten_batched _ _ (nodup_candidateAddrs ds _ hnd)
  have hinf0 : ∀ b ∈ batched (p.batch_size.getD enc.default_batch_size)
      (candidateAddrs ds (p.traversal_paths.getD enc.default_traversal_paths)),
      ∃ embs, infer (batchTexts ds b) = .ok embs ∧ embs.length = b.length := by
    intro b hb
    obtain ⟨embs, he, hl⟩ := hinf (batchTexts ds b)
    refine ⟨embs, he, ?_⟩
    rw [hl]
    unfold batchTexts
    rw [List.length_map]
    exact batchDocsOf_length_of_valid ds b (hval0 b hb)
  obtain ⟨r1, r2, r3, r4, r5⟩ := runGeneric_ok infer ds _ hval0 hnd0 hinf0
  rw [tfidfEncode_unfold]
  refine ⟨r1, r2, ?_⟩
  intro k hk n hn
  obtain ⟨embs, he, hemb⟩ := r5 k hk n hn
  exact ⟨embs, _, he, rfl, hemb⟩

/-- Witness for C4 at a concrete encoder with batch size 1: two candidate
documents produce two single-document batches, and the first batch's first
(and only) output embedding lands on the first selected document. -/
theorem encode_positional_assignment_witness :
    ([0] : List Nat).Nodup ∧
    (TFIDFTextEncoder.encode ⟨"p", 1, [0]⟩
      (fun ts => .ok (ts.map (fun s => ([(s.length : Int)] : Emb))))
      (some sampleDocs) sampleParams).err = none ∧
    ∃ embs ds',
      (fun ts => .ok (ts.map (fun s => ([(s.length : Int)] : Emb))) :
        List String → Except String (List Emb))
          (batchTexts sampleDocs ((batched 1 (candidateAddrs sampleDocs [0])).getD 0 [])) =
        .ok embs ∧
      (TFIDFTextEncoder.encode ⟨"p", 1, [0]⟩
        (fun ts => .ok (ts.map (fun s => ([(s.length : Int)] : Emb))))
        (some sampleDocs) sampleParams).docs = some ds' ∧
      embAt ds' (((batched 1 (candidateAddrs sampleDocs [0])).getD 0 []).getD 0 []) =
        some (some (embs.getD 0 [])) := by
  obtain ⟨h1, h2, h3⟩ := encode_positional_assignment ⟨"p", 1, [0]⟩
    (fun ts => .ok (ts.map (fun s => ([(s.length : Int)] : Emb)))) sampleDocs sampleParams
    (by decide) (fun ts => ⟨ts.map (fun s => ([(s.length : Int)] : Emb)), rfl, by simp⟩)
  obtain ⟨embs, ds', he, hdocs, hemb⟩ := h3 0 (by decide) 0 (by decide)
  exact ⟨by decide, h1, embs, ds', he, hdocs, hemb⟩

/-- C5: for a context-type DPR encoder with a title tag key set, when a batch
contains documents lacking the title tag (in particular when some but not
all carry it), the whole request fails with the title-tag mismatch
`ValueError` raised before any inference on that batch (no call is recorded
for it, only the `kk` earlier batches'), and no document of that batch
receives an embedding.  `kk` is the first batch exhibiting the mismatch. -/
theorem dpr_title_mismatch_fails_request (enc : DPRTextEncoder) (k : String)
    (infer : List String → Option (List String) → Except String (List Emb))
    (ds : List Doc) (p : Params)
    (hctx : enc.encoder_type = "context") (hkset : enc.title_tag_key = some k)
    (hkne : k.isEmpty = false)
    (hnd : (p.traversal_paths.getD enc.default_traversal_paths).Nodup) (kk : Nat)
    (hkk : kk < (batched (p.batch_size.getD enc.default_batch_size)
      (candidateAddrs ds (p.traversal_paths.getD enc.default_traversal_paths))).length)
    (hpre : ∀ i, i < kk →
      (none ∉ (batchDocsOf ds ((batched (p.batch_size.getD enc.default_batch_size)
        (candidateAddrs ds
          (p.traversal_paths.getD enc.default_traversal_paths))).getD i [])).map
            (fun d => getTag d k)) ∧
      ∃ embs, infer
        (batchTexts ds ((batched (p.batch_size.getD enc.default_batch_size)
          (candidateAddrs ds
            (p.traversal_paths.getD enc.default_traversal_paths))).getD i []))
        (some (((batchDocsOf ds ((batched (p.batch_size.getD enc.default_batch_size)
          (candidateAddrs ds
            (p.traversal_paths.getD enc.default_traversal_paths))).getD i [])).map
              (fun d => getTag d k)).filterMap id)) = .ok embs)
    (hmiss : ∃ d ∈ batchDocsOf ds ((batched (p.batch_size.getD enc.default_batch_size)
      (candidateAddrs ds
        (p.traversal_paths.getD enc.default_traversal_paths))).getD kk []),
      getTag d k = none) :
    (∃ c, (enc.encode infer (some ds) p).err = some (.titleTagMismatch c)) ∧
    (enc.encode infer (some ds) p).calls.length = kk ∧
    ∃ ds', (enc.encode infer (some ds) p).docs = some ds' ∧
      ∀ a ∈ (batched (p.batch_size.getD enc.default_batch_size)
        (candidateAddrs ds (p.traversal_paths.getD enc.default_traversal_paths))).getD
          kk [],
        embAt ds' a = embAt ds a := by
  have hkey : dprTitleKey enc = some k := by
    unfold dprTitleKey
    rw [hctx, hkset]
    simp [hkne]
  have hnd0 : (batched (p.batch_size.getD enc.default_batch_size)
      (candidateAddrs ds (p.traversal_paths.getD enc.default_traversal_paths))).flatten.Nodup :=
    nodup_flatten_batched _ _ (nodup_candidateAddrs ds _ hnd)
  have hmiss' : none ∈ (batchDocsOf ds
      ((batched (p.batch_size.getD enc.default_batch_size)
        (candidateAddrs ds
          (p.traversal_paths.getD enc.default_traversal_paths))).getD kk [])).map
        (fun d => getTag d k) := by
    obtain ⟨d, hd, htag⟩ := hmiss
    exact List.mem_map.mpr ⟨d, hd, htag⟩
  obtain ⟨⟨c, h1⟩, h2, h3⟩ := runDpr_first_mismatch enc infer k hkey ds _ hnd0 kk hkk
    hpre hmiss'
  rw [dprEncode_unfold]
  exact ⟨⟨c, h1⟩, h2, _, rfl, h3⟩

/-- Witness for C5: a context encoder over a batch where one document has the
title tag and two (a root and a chunk) lack it; the first batch fails, with
zero inference calls and no embedding assigned. -/
theorem dpr_title_mismatch_fails_request_witness :
    (∃ d ∈ batchDocsOf sampleDocs
      ((batched 32 (candidateAddrs sampleDocs [0, 1])).getD 0 []),
      getTag d "title" = none) ∧
    (∃ c, (DPRTextEncoder.encode ⟨"context", some "title", 32, [0, 1]⟩
      (fun ts _ => .ok (ts.map (fun _ => [1]))) (some sampleDocs) sampleParams).err =
        some (.titleTagMismatch c)) ∧
    (DPRTextEncoder.encode ⟨"context", some "title", 32, [0, 1]⟩
      (fun ts _ => .ok (ts.map (fun _ => [1]))) (some sampleDocs) sampleParams).calls = [] ∧
    ∃ ds', (DPRTextEncoder.encode ⟨"context", some "title", 32, [0, 1]⟩
      (fun ts _ => .ok (ts.map (fun _ => [1]))) (some sampleDocs) sampleParams).docs =
        some ds' ∧
      embAt ds' [1] = embAt sampleDocs [1] := by
  have hmiss : ∃ d ∈ batchDocsOf sampleDocs
      ((batched 32 (candidateAddrs sampleDocs [0, 1])).getD 0 []),
      getTag d "title" = none := by
    refine ⟨docB, ?_, rfl⟩
    exact List.mem_cons_of_mem _ (List.mem_cons_self _ _)
  obtain ⟨hc, hcalls, ds', hdocs, hkeep⟩ :=
    dpr_title_mismatch_fails_request ⟨"context", some "title", 32, [0, 1]⟩ "title"
      (fun ts _ => .ok (ts.map (fun _ => [1]))) sampleDocs sampleParams rfl rfl rfl
      (by decide) 0 (by decide) (fun i hi => absurd hi (by omega)) hmiss
  refine ⟨hmiss, hc, ?_, ds', hdocs, ?_⟩
  · have : (DPRTextEncoder.encode ⟨"context", some "title", 32, [0, 1]⟩
        (fun ts _ => .ok (ts.map (fun _ => [1]))) (some sampleDocs) sampleParams).calls.length
          = 0 := hcalls
    cases hlist : (DPRTextEncoder.encode ⟨"context", some "title", 32, [0, 1]⟩
        (fun ts _ => .ok (ts.map (fun _ => [1]))) (some sampleDocs) sampleParams).calls with
    | nil => rfl
    | cons x xs => rw [hlist] at this; simp at this
  · apply hkeep
    exact List.mem_cons_of_mem _ (List.mem_cons_self _ _)

/-- C9: batches are processed strictly sequentially in traversal order, and a
failure of the inference call on batch `k` aborts the whole encode call with
that error: exactly the `k` earlier calls were made (in order, on their
batches' texts), documents of earlier batches retain the embeddings those
calls assigned (no rollback), and documents of batch `k` and of all later
batches keep the embeddings they had before the call.  Stated for
`LaserEncoder.encode`. -/
theorem encode_batch_failure_abort (enc : LaserEncoder)
    (infer : List String → String → Except String (List Emb)) (ds : List Doc)
    (p : Params) (m : String)
    (hnd : (p.traversal_paths.getD enc.default_traversal_paths).Nodup) (k : Nat)
    (hk : k < (batched (p.batch_size.getD enc.default_batch_size)
      (candidateAddrs ds (p.traversal_paths.getD enc.default_traversal_paths))).length)
    (hpre : ∀ i, i < k → ∃ embs,
      infer (batchTexts ds ((batched (p.batch_size.getD enc.default_batch_size)
        (candidateAddrs ds
          (p.traversal_paths.getD enc.default_traversal_paths))).getD i []))
        (p.language.getD enc.default_language) = .ok embs ∧
      embs.length = ((batched (p.batch_size.getD enc.default_batch_size)
        (candidateAddrs ds
          (p.traversal_paths.getD enc.default_traversal_paths))).getD i []).length)
    (hfail : infer (batchTexts ds ((batched (p.batch_size.getD enc.default_batch_size)
      (candidateAddrs ds
        (p.traversal_paths.getD enc.default_traversal_paths))).getD k []))
      (p.language.getD enc.default_language) = .error m) :
    (enc.encode infer (some ds) p).err = some (.inferenceFailure m) ∧
    (enc.encode infer (some ds) p).calls =
      (((batched (p.batch_size.getD enc.default_batch_size)
        (candidateAddrs ds
          (p.traversal_paths.getD enc.default_traversal_paths))).take k).map
            (batchTexts ds)).map
        (fun t => (t, p.language.getD enc.default_language)) ∧
    ∃ ds', (enc.encode infer (some ds) p).docs = some ds' ∧
      (∀ a, (∃ j, k ≤ j ∧
          j < (batched (p.batch_size.getD enc.default_batch_size)
            (candidateAddrs ds
              (p.traversal_paths.getD enc.default_traversal_paths))).length ∧
          a ∈ (batched (p.batch_size.getD enc.default_batch_size)
            (candidateAddrs ds
              (p.traversal_paths.getD enc.default_traversal_paths))).getD j []) →
        embAt ds' a = embAt ds a) ∧
      ∀ i, i < k →
        ∀ n, n < ((batched (p.batch_size.getD enc.default_batch_size)
          (candidateAddrs ds
            (p.traversal_paths.getD enc.default_traversal_paths))).getD i []).length →
        ∃ embs,
          infer (batchTexts ds ((batched (p.batch_size.getD enc.default_batch_size)
            (candidateAddrs ds
              (p.traversal_paths.getD enc.default_traversal_paths))).getD i []))
            (p.language.getD enc.default_language) = .ok embs ∧
          embAt ds' (((batched (p.batch_size.getD enc.default_batch_size)
            (candidateAddrs ds
              (p.traversal_paths.getD enc.default_traversal_paths))).getD i []).getD n []) =
            some (some (embs.getD n [])) := by
  have hval0 : ∀ b ∈ batched (p.batch_size.getD enc.default_batch_size)
      (candidateAddrs ds (p.traversal_paths.getD enc.default_traversal_paths)),
      ∀ a ∈ b, (getDocL ds a).isSome := by
    intro b hb a ha
    exact isSome_of_mem_candidateAddrs ds _ a (mem_of_mem_batched _ _ b a hb ha)
  have hnd0 : (batched (p.batch_size.getD enc.default_batch_size)
      (candidateAddrs ds (p.traversal_paths.getD enc.default_traversal_paths))).flatten.Nodup :=
    nodup_flatten_batched _ _ (nodup_candidateAddrs ds _ hnd)
  obtain ⟨f1, f2, f3, f4⟩ := runGeneric_first_failure
    (fun ts => infer ts (p.language.getD enc.default_language)) ds _ hval0 hnd0 k hk
    hpre m hfail
  have hb := runLaser_eq_generic infer (p.language.getD enc.default_language) ds
    (batched (p.batch_size.getD enc.default_batch_size)
      (candidateAddrs ds (p.traversal_paths.getD enc.default_traversal_paths)))
  rw [laserEncode_unfold]
  refine ⟨?_, ?_, ?_⟩
  · show (runBatches (laserBatchStep infer (p.language.getD enc.default_language)) ds
      (batched (p.batch_size.getD enc.default_batch_size)
        (candidateAddrs ds (p.traversal_paths.getD enc.default_traversal_paths)))).2.2 =
      some (.inferenceFailure m)
    rw [hb]
    exact f1
  · show (runBatches (laserBatchStep infer (p.language.getD enc.default_language)) ds
      (batched (p.batch_size.getD enc.default_batch_size)
        (candidateAddrs ds (p.traversal_paths.getD enc.default_traversal_paths)))).2.1 = _
    rw [hb]
    show ((runBatches (genericBatchStep
        (fun ts => infer ts (p.language.getD enc.default_language))) ds
      (batched (p.batch_size.getD enc.default_batch_size)
        (candidateAddrs ds
          (p.traversal_paths.getD enc.default_traversal_paths)))).2.1).map
        (fun t => (t, p.language.getD enc.default_language)) = _
    rw [f2]
  · refine ⟨(runBatches (genericBatchStep
        (fun ts => infer ts (p.language.getD enc.default_language))) ds
      (batched (p.batch_size.getD enc.default_batch_size)
        (candidateAddrs ds (p.traversal_paths.getD enc.default_traversal_paths)))).1,
      ?_, f3, f4⟩
    show some (runBatches (laserBatchStep infer (p.language.getD enc.default_language)) ds
      (batched (p.batch_size.getD enc.default_batch_size)
        (candidateAddrs ds (p.traversal_paths.getD enc.default_traversal_paths)))).1 = _
    rw [hb]

/-- Inference stub for the C9 witness: fails exactly on the batch whose text
list is `["world"]`. -/
def inferBoom : List String → String → Except String (List Emb) :=
  fun ts _ => if ts = ["world"] then .error "boom" else .ok (ts.map (fun _ => [2]))

/-- Witness for C9: with batch size 1 the second batch's inference fails; the
call aborts with that error, made exactly one earlier call, the first
document keeps its newly assigned embedding and the second keeps its old
(absent) one. -/
theorem encode_batch_failure_abort_witness :
    inferBoom (batchTexts sampleDocs
      ((batched 1 (candidateAddrs sampleDocs [0])).getD 1 [])) "en" = .error "boom" ∧
    (LaserEncoder.encode ⟨"en", 1, [0]⟩ inferBoom (some sampleDocs) sampleParams).err =
      some (.inferenceFailure "boom") ∧
    ∃ ds', (LaserEncoder.encode ⟨"en", 1, [0]⟩ inferBoom
        (some sampleDocs) sampleParams).docs = some ds' ∧
      embAt ds' [1] = embAt sampleDocs [1] ∧
      ∃ embs, inferBoom (batchTexts sampleDocs
          ((batched 1 (candidateAddrs sampleDocs [0])).getD 0 [])) "en" = .ok embs ∧
        embAt ds' [0] = some (some (embs.getD 0 [])) := by
  have hpre : ∀ i, i < 1 → ∃ embs,
      inferBoom (batchTexts sampleDocs
        ((batched 1 (candidateAddrs sampleDocs [0])).getD i []))
        (sampleParams.language.getD "en") = .ok embs ∧
      embs.length = ((batched 1 (candidateAddrs sampleDocs [0])).getD i []).length := by
    intro i hi
    have hi0 : i = 0 := by omega
    subst hi0
    exact ⟨[[2]], rfl, rfl⟩
  obtain ⟨h1, _, ds', hdocs, hframe, hpos⟩ :=
    encode_batch_failure_abort ⟨"en", 1, [0]⟩ inferBoom sampleDocs sampleParams "boom"
      (by decide) 1 (by decide) hpre rfl
  refine ⟨rfl, h1, ds', hdocs, ?_, ?_⟩
  · apply hframe
    exact ⟨1, by omega, by decide, by decide⟩
  · obtain ⟨embs, he, hemb⟩ := hpos 0 (by omega) 0 (by decide)
    exact ⟨embs, he, hemb⟩
